import Mathlib

/-!
Verification development for the nextra markdown loader
(source: src/dist/loader.esm.js).

The definitions below are a shallow embedding of the loader's data model and
algorithms: the page-map tree, the locale fallback filter
(`filterRouteLocale`, lines 30-63), the route-naming string functions
(`getLocaleFromFilename`, `removeExtension`, lines 132-141), the recursive
tree builder (`getPageMap` / `getFiles`, lines 161-241), the sibling locale
analyzer (`analyzeLocalizedEntries`, lines 243-280) and the locale dispatch
code generator (the i18nEntry template inside `loader`, lines 346-377).

JavaScript-specific semantics that the source relies on are modelled
explicitly:
 - falsy tests on locale values (`!page.locale`, `!locale`) treat both
   an absent value and the empty string as false (`strFalsy`);
 - a plain object used as a dictionary (`fallbackPages`) keeps keys in
   insertion order, except that `for ... in` enumerates keys that are
   canonical 32-bit array indices first, in ascending numeric order
   (`forInPairs`); assigning to an existing key keeps its position;
 - `undefined === undefined` is true, so comparisons of possibly-absent
   strings are equality on `Option String`;
 - async traversal is modelled sequentially in directory-enumeration
   order, which is the determinism the specification itself demands of
   the merge step.
-/

/-- JavaScript falsiness of a possibly-absent string: `undefined` and the
empty string are falsy. -/
def strFalsy : Option String → Bool
  | none => true
  | some s => decide (s = "")

/-- A node of the page map. `dir` nodes carry a `children` field (the code
tests `page.children` to recognize them); `page` and `metaFile` nodes are
the non-directory siblings the locale filter works on. `frontMatter` is
present only when the extracted metadata is non-empty; meta values are
modelled as strings. -/
inductive PageMapNode where
  | dir (name route : String) (children : List PageMapNode)
  | page (name route : String) (locale : Option String)
      (frontMatter : Option (List (String × String)))
  | metaFile (name : String) (meta : List (String × String))
      (locale : Option String)

mutual

/-- Structural equality test for nodes (needed because the nested
inductive cannot derive `DecidableEq`). -/
def nodeBEq : PageMapNode → PageMapNode → Bool
  | .dir n r cs, .dir n' r' cs' =>
    decide (n = n') && decide (r = r') && nodesBEq cs cs'
  | .page n r l f, .page n' r' l' f' =>
    decide (n = n') && decide (r = r') && decide (l = l') && decide (f = f')
  | .metaFile n m l, .metaFile n' m' l' =>
    decide (n = n') && decide (m = m') && decide (l = l')
  | _, _ => false

/-- Structural equality test for node lists. -/
def nodesBEq : List PageMapNode → List PageMapNode → Bool
  | [], [] => true
  | a :: as, b :: bs => nodeBEq a b && nodesBEq as bs
  | _, _ => false

end

mutual

theorem nodeBEq_iff : ∀ a b, nodeBEq a b = true ↔ a = b
  | .dir n r cs, .dir n' r' cs' => by
    simp [nodeBEq, nodesBEq_iff cs cs', and_assoc]
  | .page n r l f, .page n' r' l' f' => by simp [nodeBEq, and_assoc]
  | .metaFile n m l, .metaFile n' m' l' => by simp [nodeBEq, and_assoc]
  | .dir _ _ _, .page _ _ _ _ => by simp [nodeBEq]
  | .dir _ _ _, .metaFile _ _ _ => by simp [nodeBEq]
  | .page _ _ _ _, .dir _ _ _ => by simp [nodeBEq]
  | .page _ _ _ _, .metaFile _ _ _ => by simp [nodeBEq]
  | .metaFile _ _ _, .dir _ _ _ => by simp [nodeBEq]
  | .metaFile _ _ _, .page _ _ _ _ => by simp [nodeBEq]

theorem nodesBEq_iff : ∀ as bs, nodesBEq as bs = true ↔ as = bs
  | [], [] => by simp [nodesBEq]
  | a :: as, b :: bs => by
    simp [nodesBEq, nodeBEq_iff a b, nodesBEq_iff as bs]
  | [], _ :: _ => by simp [nodesBEq]
  | _ :: _, [] => by simp [nodesBEq]

end

instance : DecidableEq PageMapNode := fun a b =>
  decidable_of_iff (nodeBEq a b = true) (nodeBEq_iff a b)

namespace PageMapNode

/-- The `name` field, present on every node. -/
def name : PageMapNode → String
  | dir n _ _ => n
  | page n _ _ _ => n
  | metaFile n _ _ => n

/-- The `locale` field; directory objects have no such field (undefined). -/
def locale : PageMapNode → Option String
  | dir _ _ _ => none
  | page _ _ l _ => l
  | metaFile _ _ l => l

/-- Whether the node has a `children` field (the code's `page.children`
truthiness test; an array is always truthy). -/
def isDir : PageMapNode → Bool
  | dir _ _ _ => true
  | _ => false

/-- The `route` field; meta-file objects have no such field (undefined). -/
def routeOf : PageMapNode → Option String
  | dir _ r _ => some r
  | page _ r _ _ => some r
  | metaFile _ _ _ => none

end PageMapNode

/-! ## The fallbackPages object

`fallbackPages` is a plain JS object mapping a sibling name to either
`null` (the name is resolved: an exact match was pushed) or a node (the
current fallback candidate). We model it as an association list in key
insertion order; `fbGet` returns `none` when the key is absent (JS
`undefined`), `some none` for `null`, and `some (some p)` for a node. -/

abbrev FallbackMap := List (String × Option PageMapNode)

/-- Property read `m[k]`: absent / null / node. -/
def fbGet (m : FallbackMap) (k : String) : Option (Option PageMapNode) :=
  match m with
  | [] => none
  | (k', v) :: rest => if k' = k then some v else fbGet rest k

/-- Property write `m[k] = v`: updating an existing key keeps its position,
a new key is appended (JS insertion order). -/
def fbSet (m : FallbackMap) (k : String) (v : Option PageMapNode) :
    FallbackMap :=
  match m with
  | [] => [(k, v)]
  | (k', v') :: rest =>
    if k' = k then (k', v) :: rest else (k', v') :: fbSet rest k v

/-- The numeric value of a digit string (base 10). -/
def digitsToNat (cs : List Char) : Nat :=
  cs.foldl (fun acc c => acc * 10 + (c.toNat - 48)) 0

/-- Whether a string is a canonical array index in the sense of ECMA-262:
the canonical decimal form (non-empty, all digits, no leading zero except
for `0` itself) of an integer below 2^32 - 1. `for ... in` enumerates
such keys first, in ascending numeric order. -/
def isArrayIndex (s : String) : Bool :=
  (match s.data with
   | [] => false
   | ['0'] => true
   | c :: rest => decide (c ≠ '0') && c.isDigit && rest.all Char.isDigit) &&
    decide (digitsToNat s.data < 4294967295)

/-- Numeric value used to order array-index keys. -/
def keyNum (p : String × Option PageMapNode) : Nat :=
  digitsToNat p.1.data

/-- Insert one entry into a list of entries sorted by `keyNum`. -/
def insertNumeric (p : String × Option PageMapNode) :
    FallbackMap → FallbackMap
  | [] => [p]
  | q :: rest =>
    if keyNum p ≤ keyNum q then p :: q :: rest else q :: insertNumeric p rest

/-- Insertion sort by `keyNum`. -/
def sortNumeric : FallbackMap → FallbackMap
  | [] => []
  | p :: rest => insertNumeric p (sortNumeric rest)

/-- The key-value pairs of the object in `for ... in` enumeration order:
canonical array-index keys first in ascending numeric order, then the
remaining keys in insertion order. -/
def forInPairs (m : FallbackMap) : FallbackMap :=
  sortNumeric (m.filter fun q => isArrayIndex q.1) ++
    m.filter fun q => !isArrayIndex q.1

/-! ## filterRouteLocale (lines 30-63) -/

/-- Line 31: `const isDefaultLocale = !locale || locale === defaultLocale`. -/
def isDefaultLocaleB (locale defaultLocale : Option String) : Bool :=
  strFalsy locale || decide (locale = defaultLocale)

/-- Line 44: `const localDoesMatch =
!page.locale && isDefaultLocale || page.locale === locale`. -/
def localeMatches (p : PageMapNode) (locale defaultLocale : Option String) :
    Bool :=
  (strFalsy p.locale && isDefaultLocaleB locale defaultLocale) ||
    decide (p.locale = locale)

/-- Line 50, second conjunct: `!page.locale || page.locale === defaultLocale`. -/
def fallbackCond (p : PageMapNode) (defaultLocale : Option String) : Bool :=
  strFalsy p.locale || decide (p.locale = defaultLocale)

mutual

/-- The loop of lines 36-54, threading `fallbackPages` left to right and
returning the pushed `filteredPageMap` part together with the final map. -/
def filterLoop (pageMap : List PageMapNode)
    (locale defaultLocale : Option String) (fb : FallbackMap) :
    List PageMapNode × FallbackMap :=
  match pageMap with
  | [] => ([], fb)
  | p :: rest =>
    match p with
    | .dir n r cs =>
      let (out, fb') := filterLoop rest locale defaultLocale fb
      (.dir n r (filterRouteLocale cs locale defaultLocale) :: out, fb')
    | q =>
      if localeMatches q locale defaultLocale then
        let (out, fb') :=
          filterLoop rest locale defaultLocale (fbSet fb q.name none)
        (q :: out, fb')
      else if decide (fbGet fb q.name ≠ some none) &&
          fallbackCond q defaultLocale then
        filterLoop rest locale defaultLocale (fbSet fb q.name (some q))
      else
        filterLoop rest locale defaultLocale fb
termination_by sizeOf pageMap
decreasing_by all_goals simp_wf; all_goals omega

/-- `filterRouteLocale(pageMap, locale, defaultLocale)` (lines 30-63): the
pass of lines 36-54 followed by the `for ... in` append of lines 56-60. -/
def filterRouteLocale (pageMap : List PageMapNode)
    (locale defaultLocale : Option String) : List PageMapNode :=
  let r := filterLoop pageMap locale defaultLocale []
  r.1 ++ (forInPairs r.2).filterMap fun q => q.2
termination_by sizeOf pageMap + 1
decreasing_by all_goals simp_wf; all_goals omega

end

/-! ## Route naming (lines 132-159)

`getLocaleFromFilename` applies the regex
`\.([a-zA-Z-]+)?\.(mdx?|jsx?|json)$` and returns capture group 1. Because
the pattern is anchored at the end and neither the extension alternatives
nor the locale group may contain a dot, a match exists exactly when the
filename's last dot-component is one of `md`, `mdx`, `js`, `jsx`, `json`
and its second-to-last dot-component is a (possibly empty) run of letters
and hyphens; the group is that run, absent when the run is empty. We read
the filename from the right. -/

/-- A character admitted by the `[a-zA-Z-]` class. -/
def locCharB (c : Char) : Bool := c.isAlpha || decide (c = '-')

/-- Suffix test on strings by characters (the core `String.endsWith` does
not reduce in the kernel). -/
def strEndsWith (s e : String) : Bool :=
  e.data.reverse.isPrefixOf s.data.reverse

/-- The extension alternatives of the locale regex, each with its leading
dot, reversed (the filename is scanned from its last character). -/
def localeExtsRev : List (List Char) :=
  [".md".data.reverse, ".mdx".data.reverse, ".js".data.reverse,
   ".jsx".data.reverse, ".json".data.reverse]

/-- Strip one of the recognized `.ext` suffixes from a reversed character
list; the alternatives are mutually exclusive, so at most one applies. -/
def stripLocaleExtRev (rcs : List Char) : Option (List Char) :=
  match localeExtsRev.find? (fun e => e.isPrefixOf rcs) with
  | some e => some (rcs.drop e.length)
  | none => none

/-- `getLocaleFromFilename(name)` (lines 132-137): capture group 1 of
`name.match(/\.([a-zA-Z-]+)?\.(mdx?|jsx?|json)$/)`, or `undefined` when
either the regex does not match or the optional group is empty. -/
def getLocaleFromFilename (name : String) : Option String :=
  match stripLocaleExtRev name.data.reverse with
  | none => none
  | some rest =>
    let run := rest.takeWhile locCharB
    match rest.drop run.length with
    | c :: _ =>
      if c = '.' then
        if run.isEmpty then none else some (String.mk run.reverse)
      else none
    | [] => none

/-- `removeExtension(name)` (lines 138-141): the match of `/^([^.]+)/`,
i.e. the longest dot-free prefix, the empty string when there is none. -/
def removeExtension (name : String) : String :=
  String.mk (name.data.takeWhile fun c => decide (c ≠ '.'))

/-- The `extension` regex `\.(mdx?|jsx?|tsx?)$` (line 157). -/
def extensionTest (s : String) : Bool :=
  [".md", ".mdx", ".js", ".jsx", ".ts", ".tsx"].any fun e => strEndsWith s e

/-- The `mdxExtension` regex `\.mdx?$` (line 158). -/
def mdxTest (s : String) : Bool :=
  strEndsWith s ".md" || strEndsWith s ".mdx"

/-! The `metaExtension` regex `meta\.?([a-zA-Z-]+)?\.json` (line 159) is
unanchored: a filename matches when some occurrence of the literal `meta`
is followed by an optional dot, an optional run of letters and hyphens,
and `.json`. The leftmost occurrence that completes a match supplies
capture group 1 (`f.name.match(metaExtension)[1]`, line 216). Greedy
matching after a fixed start position is deterministic here: the group run
cannot end before a letter or hyphen, so only the maximal run, or the
empty one, can be followed by the literal dot of `\.json`. -/

/-- Try to match `\.?([a-zA-Z-]+)?\.json` against a prefix of `cs` (the
text following one occurrence of `meta`), returning the capture group. -/
def metaAfter (cs : List Char) : Option (Option String) :=
  let tryRun : List Char → Option (Option String) := fun t =>
    let run := t.takeWhile locCharB
    if ".json".data.isPrefixOf (t.drop run.length) then
      some (if run.isEmpty then none else some (String.mk run))
    else none
  match cs with
  | '.' :: t =>
    (match tryRun t with
     | some g => some g
     | none => tryRun cs)
  | _ => tryRun cs

/-- Scan for the leftmost occurrence of `meta` whose continuation matches,
returning capture group 1 of the whole regex. -/
def metaScanAux : List Char → Option (Option String)
  | [] => none
  | c :: rest =>
    if "meta".data.isPrefixOf (c :: rest) then
      match metaAfter ((c :: rest).drop 4) with
      | some g => some g
      | none => metaScanAux rest
    else metaScanAux rest

/-- `name.match(metaExtension)`: `some locale-group` when the regex
matches, `none` when it does not (so `metaExtension.test(name)` is
`(metaFileMatch name).isSome`). -/
def metaFileMatch (name : String) : Option (Option String) :=
  metaScanAux name.data

/-! ## Tree builder (getPageMap / getFiles, lines 161-241)

The filesystem is a finite tree of named entries; file contents are raw
strings. Two collaborators are black boxes and enter as oracle parameters:
`fm` models `grayMatter(...).data` (front-matter extraction, §2.1 of the
spec) and `jp` models `JSON.parse`, which either yields a mapping or
throws (modelled by `Except`). The traversal of one directory issues its
reads concurrently but reassembles items in enumeration order; we model it
sequentially in enumeration order, the determinism the spec requires of
the merge step. -/

/-- A filesystem entry. -/
inductive FSEntry where
  | dir (name : String) (entries : List FSEntry)
  | file (name : String) (content : String)

/-- Build-wide context of one `getPageMap` invocation: the oracles, the
path of the file being compiled and `activeRouteLocale` (line 162). -/
structure BuildCtx where
  fm : String → List (String × String)
  jp : String → Except String (List (String × String))
  currentResourcePath : String
  activeRouteLocale : Option String

/-- The mutable variables of `getPageMap` (lines 163-164), threaded
through the traversal. -/
structure BuildState where
  activeRoute : String
  activeRouteTitle : String
deriving DecidableEq, Repr

/-- `parseJsonFile` (lines 145-155): malformed JSON is caught, logged and
degraded to an empty mapping. -/
def parseJsonFile (jp : String → Except String (List (String × String)))
    (content : String) : List (String × String) :=
  match jp content with
  | .ok m => m
  | .error _ => []

/-- `path.join(route, seg)` for an absolute route and a plain segment
(line 174): joining the empty segment is the identity. -/
def joinRoute (route seg : String) : String :=
  if seg = "" then route
  else if strEndsWith route "/" then route ++ seg
  else route ++ "/" ++ seg

/-- `removeExtension(f.name).replace(/^index$/, '')` (line 174). -/
def routeSeg (name : String) : String :=
  let b := removeExtension name
  if b = "index" then "" else b

/-- First-match lookup in a parsed JSON mapping (`dirMeta[key]`; the
oracle yields each key once, as `JSON.parse` does). -/
def lookupAssoc (m : List (String × String)) (k : String) : Option String :=
  match m with
  | [] => none
  | (k', v) :: rest => if k' = k then some v else lookupAssoc rest k

/-- `dirMeta[item.name] || item.name` (line 232): a missing entry and the
falsy empty string both fall back to the item's own name. -/
def lookupTitle (m : List (String × String)) (n : String) : String :=
  match lookupAssoc m n with
  | some v => if v = "" then n else v
  | none => n

/-- The `.map(item => ...)` pass of lines 228-236: skip falsy items, and
for each remaining item whose `route` equals the discovered `activeRoute`,
set `activeRouteTitle` from this directory's authoritative meta. -/
def mapPhase (items : List (Option PageMapNode))
    (dirMeta : List (String × String)) (st : BuildState) :
    List PageMapNode × BuildState :=
  match items with
  | [] => ([], st)
  | none :: rest => mapPhase rest dirMeta st
  | some it :: rest =>
    let st1 :=
      if it.routeOf = some st.activeRoute then
        { st with activeRouteTitle := lookupTitle dirMeta it.name }
      else st
    let (out, st2) := mapPhase rest dirMeta st1
    (it :: out, st2)

mutual

/-- The body of the `files.map(async f => ...)` arrow (lines 172-227),
over the entries of one directory in enumeration order, threading this
directory's `dirMeta` and the build state. Produces the pre-`map` item
list: `none` is the `null` of a pruned empty subdirectory or the
`undefined` of an unrecognized entry. -/
def getEntries (ctx : BuildCtx) (entries : List FSEntry)
    (dirPath route : String) (dirMeta : List (String × String))
    (st : BuildState) :
    List (Option PageMapNode) × List (String × String) × BuildState :=
  match entries with
  | [] => ([], dirMeta, st)
  | .dir name sub :: rest =>
    let fileRoute := joinRoute route (routeSeg name)
    let (children, st1) := getFiles ctx sub (dirPath ++ "/" ++ name) fileRoute st
    let item : Option PageMapNode :=
      if children.isEmpty then none
      else some (.dir name fileRoute children)
    let (items, dm, st2) := getEntries ctx rest dirPath route dirMeta st1
    (item :: items, dm, st2)
  | .file name content :: rest =>
    let filePath := dirPath ++ "/" ++ name
    let fileRoute := joinRoute route (routeSeg name)
    if extensionTest name then
      let locale := getLocaleFromFilename name
      let st1 :=
        if filePath = ctx.currentResourcePath then
          { st with activeRoute := fileRoute }
        else st
      let item : PageMapNode :=
        if mdxTest name then
          let data := ctx.fm content
          if data.isEmpty then .page (removeExtension name) fileRoute locale none
          else .page (removeExtension name) fileRoute locale (some data)
        else .page (removeExtension name) fileRoute locale none
      let (items, dm, st2) := getEntries ctx rest dirPath route dirMeta st1
      (some item :: items, dm, st2)
    else
      match metaFileMatch name with
      | some locale =>
        let meta := parseJsonFile ctx.jp content
        let dirMeta1 :=
          if strFalsy ctx.activeRouteLocale ∨ locale = ctx.activeRouteLocale
          then meta else dirMeta
        let (items, dm, st2) := getEntries ctx rest dirPath route dirMeta1 st
        (some (.metaFile "meta.json" meta locale) :: items, dm, st2)
      | none =>
        let (items, dm, st2) := getEntries ctx rest dirPath route dirMeta st
        (none :: items, dm, st2)
termination_by sizeOf entries
decreasing_by all_goals simp_wf; all_goals omega

/-- `getFiles(dir, route)` (lines 166-238) applied to the entries of one
directory: resolve every entry, then run the `.map(item => ...)`
title-resolution pass and drop falsy items (`.filter(Boolean)`). -/
def getFiles (ctx : BuildCtx) (entries : List FSEntry)
    (dirPath route : String) (st : BuildState) :
    List PageMapNode × BuildState :=
  let (items, dirMeta, st1) := getEntries ctx entries dirPath route [] st
  mapPhase items dirMeta st1
termination_by sizeOf entries + 1
decreasing_by all_goals simp_wf; all_goals omega

end

/-- `getPageMap(currentResourcePath)` (lines 161-241): run `getFiles` on
the content root with route `/` and empty state, returning the page map,
the active route and its resolved title. -/
def getPageMap (fm : String → List (String × String))
    (jp : String → Except String (List (String × String)))
    (root : List FSEntry) (rootPath currentResourcePath : String) :
    List PageMapNode × String × String :=
  let ctx : BuildCtx :=
    ⟨fm, jp, currentResourcePath, getLocaleFromFilename currentResourcePath⟩
  let (items, st) := getFiles ctx root rootPath "/" ⟨"", ""⟩
  (items, st.activeRoute, st.activeRouteTitle)

/-! ## Sibling locale analyzer (analyzeLocalizedEntries, lines 243-280)

The function lists the directory of the current file and keeps every entry
matching `new RegExp('^' + filename + '.[a-zA-Z-]+.(mdx?|jsx?|tsx?|json)$')`.
The two dots of the pattern are unescaped, so they match any character but
a line terminator; we model the filename part as literal characters, which
is faithful whenever the base name contains no regex metacharacters. The
directory listing is modelled as the ordered list of (name, content)
pairs. -/

/-- A character matched by an unescaped `.` in a JS regex (any character
except the four line terminators). -/
def notLineTerm (c : Char) : Bool :=
  decide (c ≠ '\n') && decide (c ≠ '\r') &&
    decide (c ≠ Char.ofNat 0x2028) && decide (c ≠ Char.ofNat 0x2029)

/-- The extension alternatives `(mdx?|jsx?|tsx?|json)` of the sibling
pattern. -/
def siblingExts : List String :=
  ["md", "mdx", "js", "jsx", "ts", "tsx", "json"]

/-- Whether `cand` matches `^F.[a-zA-Z-]+.(mdx?|jsx?|tsx?|json)$` for the
literal base `F`: `cand = F ++ [c1] ++ l ++ [c2] ++ ext` with `c1`, `c2`
arbitrary non-terminator characters and `l` a non-empty run of letters and
hyphens. The end-anchored extension makes the decomposition unique for
each alternative. -/
def filenameReTest (filename cand : String) : Bool :=
  let cs := cand.data
  let f := filename.data
  f.isPrefixOf cs &&
    (match cs.drop f.length with
     | [] => false
     | c1 :: r =>
       notLineTerm c1 &&
         siblingExts.any fun e =>
           let ed := e.data
           decide (ed.length + 2 ≤ r.length) &&
           decide (r.drop (r.length - ed.length) = ed) &&
           (let m := r.take (r.length - ed.length)
            match m.getLast? with
            | some c2 =>
              notLineTerm c2 &&
                (let l := m.take (m.length - 1)
                 !l.isEmpty && l.all locCharB)
            | none => false))

/-- Split into the lines at which a multiline `^` can match: pieces
separated by any single line terminator. -/
def splitLinesAux : List Char → List Char → List (List Char)
  | [], acc => [acc.reverse]
  | c :: rest, acc =>
    if notLineTerm c then splitLinesAux rest (c :: acc)
    else acc.reverse :: splitLinesAux rest []

/-- The lines of a source text, as character lists. -/
def splitLines (s : String) : List (List Char) :=
  splitLinesAux s.data []

/-- One of `[=| |\(]`: `=`, `|`, space or `(`. -/
def exportEndChar (c : Char) : Bool :=
  decide (c = '=') || decide (c = '|') || decide (c = ' ') || decide (c = '(')

/-- Scan a line tail for an occurrence of `needle` followed by a
`[=| |\(]` character. -/
def needleScan (needle : List Char) : List Char → Bool
  | [] => false
  | c :: rest =>
    (needle.isPrefixOf (c :: rest) &&
      (match (c :: rest).drop needle.length with
       | d :: _ => exportEndChar d
       | [] => false)) ||
    needleScan needle rest

/-- Whether one line matches `export .+ NAME[=| |\(]` for the given
needle `" NAME"`: the line starts with `export `, and the needle occurs
at least one character later (the `.+`). -/
def exportLineTest (needle : List Char) (line : List Char) : Bool :=
  "export ".data.isPrefixOf line && needleScan needle (line.drop 8)

/-- `/^export .+ getServerSideProps[=| |\(]/m.test(content)` (line 261). -/
def exportSSRTest (content : String) : Bool :=
  (splitLines content).any (exportLineTest " getServerSideProps".data)

/-- `/^export .+ getStaticProps[=| |\(]/m.test(content)` (line 262). -/
def exportSSGTest (content : String) : Bool :=
  (splitLines content).any (exportLineTest " getStaticProps".data)

/-- One entry of the analyzer's `filteredFiles` (lines 266-271). -/
structure AnalyzedFile where
  name : String
  locale : Option String
  ssr : Bool
  ssg : Bool
deriving DecidableEq, Repr

/-- The dispatch descriptor returned by the analyzer (lines 274-279). -/
structure AnalyzeResult where
  ssr : Bool
  ssg : Bool
  files : List AnalyzedFile
  defaultIndex : Nat
deriving DecidableEq, Repr

/-- The loop of lines 255-272, threading `hasSSR`, `hasSSG`,
`defaultIndex` and `filteredFiles`. -/
def analyzeLoop (filename : String) (defaultLocale : Option String) :
    List (String × String) → Bool → Bool → Nat → List AnalyzedFile →
    AnalyzeResult
  | [], hasSSR, hasSSG, di, acc => ⟨hasSSR, hasSSG, acc, di⟩
  | (n, c) :: rest, hasSSR, hasSSG, di, acc =>
    if filenameReTest filename n then
      let locale := getLocaleFromFilename n
      let essr := exportSSRTest c
      let essg := exportSSGTest c
      let di' := if locale = defaultLocale then acc.length else di
      analyzeLoop filename defaultLocale rest (hasSSR || essr)
        (hasSSG || essg) di' (acc ++ [⟨n, locale, essr, essg⟩])
    else analyzeLoop filename defaultLocale rest hasSSR hasSSG di acc

/-- `analyzeLocalizedEntries(currentResourcePath, defaultLocale)`
(lines 243-280) applied to the directory listing of the current file;
`filename` is `getFileName(currentResourcePath)`. -/
def analyzeLocalizedEntries (filename : String)
    (defaultLocale : Option String) (entries : List (String × String)) :
    AnalyzeResult :=
  analyzeLoop filename defaultLocale entries false false 0 []

/-! ## Locale dispatch code generator (i18nEntry template, lines 346-377)

The template interpolates the analyzer's descriptor into a synthetic
module. We embed the decisions the template makes rather than the raw
text: which fetch function each variant import picks
(`file.ssg ? 'getStaticProps' : 'getServerSideProps'`, line 356), the
per-clause locale literals of the dispatchers (interpolating an absent
locale prints the string `undefined`), which fetch export is emitted
(`ssg || ssr` guard and `ssg ? 'getStaticProps' : 'getServerSideProps'`,
line 367), and each fetch clause's interpolated boolean guard
(`ssg ? file.ssg : file.ssr`, line 369). -/

/-- The two data-fetching entry points. -/
inductive FetchKind where
  | ssgKind
  | ssrKind
deriving DecidableEq, Repr

/-- Template interpolation of a possibly-absent locale into the generated
source: `undefined` prints as the literal text `undefined`. -/
def localeLiteral : Option String → String
  | some s => s
  | none => "undefined"

/-- The structure of one generated i18n dispatcher module. -/
structure I18nModule where
  componentImports : List String
  fetchImports : List (Option FetchKind)
  renderClauses : List String
  renderDefaultIndex : Nat
  fetchExport : Option (FetchKind × List (String × Bool))
deriving DecidableEq, Repr

/-- The decisions of the i18nEntry template (lines 354-375) for one
descriptor. -/
def generateI18nEntry (a : AnalyzeResult) : I18nModule where
  componentImports := a.files.map fun f => f.name
  fetchImports := a.files.map fun f =>
    if f.ssg || f.ssr then
      some (if f.ssg then .ssgKind else .ssrKind)
    else none
  renderClauses := a.files.map fun f => localeLiteral f.locale
  renderDefaultIndex := a.defaultIndex
  fetchExport :=
    if a.ssg || a.ssr then
      some (if a.ssg then FetchKind.ssgKind else FetchKind.ssrKind,
        a.files.map fun f =>
          (localeLiteral f.locale, if a.ssg then f.ssg else f.ssr))
    else none

/-- Result of running a generated fetch dispatcher at one locale. -/
inductive FetchResult where
  | callVariant (i : Nat)
  | emptyProps
deriving DecidableEq, Repr

/-- The emitted fetch dispatcher body (lines 367-374): the chain
`if (locale === 'L_i' && flag_i) return page_data_i(context) else ...`
ending in `return { props: {} }`. -/
def runFetchClauses : List (String × Bool) → Nat → String → FetchResult
  | [], _, _ => .emptyProps
  | (loc, flag) :: rest, i, l =>
    if l = loc ∧ flag then .callVariant i else runFetchClauses rest (i + 1) l

/-- The emitted render dispatcher body (lines 358-365): return the first
variant whose locale literal matches, else the `defaultIndex` variant. -/
def runRenderClauses : List String → Nat → Nat → String → Nat
  | [], di, _, _ => di
  | loc :: rest, di, i, l =>
    if l = loc then i else runRenderClauses rest di (i + 1) l

/-! ## Specification-side definitions

`specFilterSiblings` is modelled from the words of the specification and
of claim C1, for comparison with `filterRouteLocale`: the same exact-match
pass and last-qualifying-candidate bookkeeping, but the unresolved
fallback candidates are appended in the order their names were first
introduced, with no rearrangement of numeric names. -/

/-- The claim's exact-match test: `node.locale == L`, or `node.locale`
absent and `L == D`. -/
def specExact (p : PageMapNode) (L D : String) : Bool :=
  decide (p.locale = some L) ||
    (decide (p.locale = none) && decide (L = D))

/-- The claim's fallback-candidate test: locale absent or equal to `D`. -/
def specCandCond (p : PageMapNode) (D : String) : Bool :=
  decide (p.locale = none) || decide (p.locale = some D)

/-- Modelled from the spec: the first pass's bookkeeping, per name: an
exact match resolves the name for good; otherwise the last qualifying
candidate of an unresolved name is recorded, a new name being introduced
at the end of the (insertion-ordered) table. -/
def specFallbackPass (l : List PageMapNode) (L D : String)
    (fb : FallbackMap) : FallbackMap :=
  match l with
  | [] => fb
  | p :: rest =>
    if specExact p L D then specFallbackPass rest L D (fbSet fb p.name none)
    else if decide (fbGet fb p.name ≠ some none) && specCandCond p D then
      specFallbackPass rest L D (fbSet fb p.name (some p))
    else specFallbackPass rest L D fb

/-- Modelled from the spec (claim C1): exact matches in enumeration order,
then the unresolved fallback candidates in first-introduction order. -/
def specFilterSiblings (l : List PageMapNode) (L D : String) :
    List PageMapNode :=
  (l.filter fun p => specExact p L D) ++
    (specFallbackPass l L D []).filterMap fun q => q.2

/-! ## Declarative companions of the filter, for the proofs -/

/-- The final value of `fallbackPages` after the pass of lines 36-54. -/
def fbAfter (l : List PageMapNode) (L D : Option String)
    (fb : FallbackMap) : FallbackMap :=
  match l with
  | [] => fb
  | p :: rest =>
    match p with
    | .dir _ _ _ => fbAfter rest L D fb
    | q =>
      if localeMatches q L D then fbAfter rest L D (fbSet fb q.name none)
      else if decide (fbGet fb q.name ≠ some none) && fallbackCond q D then
        fbAfter rest L D (fbSet fb q.name (some q))
      else fbAfter rest L D fb

/-- The part of the output pushed during the pass of lines 36-54: every
directory (with recursively filtered children) and every exact match, in
enumeration order. -/
def mainOut (l : List PageMapNode) (L D : Option String) :
    List PageMapNode :=
  l.filterMap fun p =>
    match p with
    | .dir n r cs => some (.dir n r (filterRouteLocale cs L D))
    | q => if localeMatches q L D then some q else none

/-- Whether `l` contains a non-directory node named `n` that is an exact
match (such a node resolves the name for the whole pass). -/
def hasMatched (l : List PageMapNode) (L D : Option String) (n : String) :
    Bool :=
  l.any fun q => !q.isDir && localeMatches q L D && decide (q.name = n)

/-- Whether a node is a fallback candidate for name `n`: non-directory,
not an exact match, fallback-qualifying, named `n`. -/
def isCandFor (L D : Option String) (n : String) (q : PageMapNode) : Bool :=
  !q.isDir && !localeMatches q L D && fallbackCond q D && decide (q.name = n)

/-- The last fallback candidate named `n` in `l`, if any: the node that
survives as the fallback for an unresolved name. -/
def lastCand (l : List PageMapNode) (L D : Option String) (n : String) :
    Option PageMapNode :=
  match l with
  | [] => none
  | q :: rest =>
    match lastCand rest L D n with
    | some c => some c
    | none => if isCandFor L D n q then some q else none

/-- The keys of a fallback map, in insertion order. -/
def fbKeys (m : FallbackMap) : List String := m.map fun q => q.1

/-! ## Declarative companions of the tree builder -/

mutual

/-- No `dir` node of the tree has an empty `children` sequence. -/
def noEmptyDir : PageMapNode → Bool
  | .dir _ _ cs => !cs.isEmpty && noEmptyDirList cs
  | _ => true

/-- `noEmptyDir` on every node of a list. -/
def noEmptyDirList : List PageMapNode → Bool
  | [] => true
  | p :: rest => noEmptyDir p && noEmptyDirList rest

end

/-- Whether one directory entry contributes a node to the built children
sequence: a subdirectory whose recursive result is non-empty, or a file
matching the content extension or the meta pattern. -/
def entryKept (ctx : BuildCtx) (dirPath route : String) (e : FSEntry) :
    Bool :=
  match e with
  | .dir name sub =>
    !(getFiles ctx sub (dirPath ++ "/" ++ name)
        (joinRoute route (routeSeg name)) ⟨"", ""⟩).1.isEmpty
  | .file name _ => extensionTest name || (metaFileMatch name).isSome

/-- The parsed mapping of a directory entry that is a meta-config file
qualifying as authoritative (its locale matches the active file's, or no
locale constraint is active), `none` otherwise. -/
def metaEntryParsed (ctx : BuildCtx) (e : FSEntry) :
    Option (List (String × String)) :=
  match e with
  | .dir _ _ => none
  | .file name content =>
    if extensionTest name then none
    else
      match metaFileMatch name with
      | some locale =>
        if strFalsy ctx.activeRouteLocale ∨ locale = ctx.activeRouteLocale
        then some (parseJsonFile ctx.jp content) else none
      | none => none

/-! ## Declarative companion of the analyzer loop -/

/-- The value of `defaultIndex` after scanning `fs`, whose first element
sits at position `base`, starting from current value `cur`: the last
variant whose locale equals the default locale wins. -/
def lastMatchIdx (dl : Option String) (fs : List AnalyzedFile)
    (base cur : Nat) : Nat :=
  match fs with
  | [] => cur
  | f :: rest =>
    lastMatchIdx dl rest (base + 1) (if f.locale = dl then base else cur)

/-- The analyzed record of one matched directory entry (lines 258-271). -/
def analyzedOf (p : String × String) : AnalyzedFile :=
  ⟨p.1, getLocaleFromFilename p.1, exportSSRTest p.2, exportSSGTest p.2⟩

/-- The analyzed records of the directory entries that pass the sibling
filename pattern, in enumeration order (the analyzer's `filteredFiles`). -/
def matchedFiles (filename : String) (entries : List (String × String)) :
    List AnalyzedFile :=
  (entries.filter fun p => filenameReTest filename p.1).map analyzedOf

/-- The nodes appended by the `for ... in` loop of lines 56-60: the
non-null fallback candidates, in enumeration order of the object. -/
def fbOut (l : List PageMapNode) (L D : Option String) : List PageMapNode :=
  (forInPairs (fbAfter l L D [])).filterMap fun e => e.2

/-! ## Concrete objects used by witnesses and counterexamples -/

/-- The node of `a.md` in the spec's worked example. -/
def exA : PageMapNode := .page "a" "/a" none none

/-- The node of `a.en.md` in the spec's worked example. -/
def exAen : PageMapNode := .page "a" "/a" (some "en") none

/-- The node of `a.fr.md` in the spec's worked example. -/
def exAfr : PageMapNode := .page "a" "/a" (some "fr") none

/-- A locale-less page named `2` (the name is a canonical array index). -/
def exN2 : PageMapNode := .page "2" "/2" none none

/-- A locale-less page named `1` (the name is a canonical array index). -/
def exN1 : PageMapNode := .page "1" "/1" none none

/-- A locale-less page named `x`. -/
def exX : PageMapNode := .page "x" "/x" none none

/-- A default-locale-tagged sibling of `exX`. -/
def exXen : PageMapNode := .page "x" "/x" (some "en") none

/-- A front-matter oracle returning the empty mapping. -/
def fmEmpty : String → List (String × String) := fun _ => []

/-- A JSON oracle on which every parse fails. -/
def jpFail : String → Except String (List (String × String)) :=
  fun _ => .error "unexpected token"

/-- A concrete build context for witnesses. -/
def ctxW : BuildCtx :=
  ⟨fmEmpty, jpFail, "/pages/a.en.md", getLocaleFromFilename "/pages/a.en.md"⟩

/-- A concrete directory listing: a page, its locale variant and a
malformed meta file. -/
def entriesW : List FSEntry :=
  [.file "a.md" "", .file "a.en.md" "", .file "meta.en.json" "nonsense",
   .dir "empty" [], .file "notes.txt" ""]

/-! ## Lemmas: the pass of filterRouteLocale -/

theorem filterLoop_fst (l : List PageMapNode) (L D : Option String)
    (fb : FallbackMap) : (filterLoop l L D fb).1 = mainOut l L D := by
  induction l generalizing fb with
  | nil => simp [filterLoop, mainOut]
  | cons p rest ih =>
    cases p with
    | dir n r cs => simp [filterLoop, mainOut, List.filterMap_cons, ih]
    | page n r lo f =>
      by_cases h : localeMatches (.page n r lo f) L D
      · simp [filterLoop, mainOut, List.filterMap_cons, h, ih,
          PageMapNode.name]
      · simp [filterLoop, mainOut, List.filterMap_cons, h]
        split <;> simp [mainOut, ih]
    | metaFile n m lo =>
      by_cases h : localeMatches (.metaFile n m lo) L D
      · simp [filterLoop, mainOut, List.filterMap_cons, h, ih,
          PageMapNode.name]
      · simp [filterLoop, mainOut, List.filterMap_cons, h]
        split <;> simp [mainOut, ih]

theorem filterLoop_snd (l : List PageMapNode) (L D : Option String)
    (fb : FallbackMap) : (filterLoop l L D fb).2 = fbAfter l L D fb := by
  induction l generalizing fb with
  | nil => simp [filterLoop, fbAfter]
  | cons p rest ih =>
    cases p with
    | dir n r cs => simp [filterLoop, fbAfter, ih]
    | page n r lo f =>
      by_cases h : localeMatches (.page n r lo f) L D
      · simp [filterLoop, fbAfter, h, ih]
      · simp [filterLoop, fbAfter, h]
        split <;> simp [ih]
    | metaFile n m lo =>
      by_cases h : localeMatches (.metaFile n m lo) L D
      · simp [filterLoop, fbAfter, h, ih]
      · simp [filterLoop, fbAfter, h]
        split <;> simp [ih]

/-- The output of the filter, split into the pass output and the
`for ... in` append. -/
theorem filterRouteLocale_eq (l : List PageMapNode) (L D : Option String) :
    filterRouteLocale l L D = mainOut l L D ++ fbOut l L D := by
  rw [filterRouteLocale, filterLoop_fst, filterLoop_snd]
  rfl

theorem fbGet_fbSet (m : FallbackMap) (k k' : String)
    (v : Option PageMapNode) :
    fbGet (fbSet m k v) k' = if k = k' then some v else fbGet m k' := by
  induction m with
  | nil => by_cases h : k = k' <;> simp [fbSet, fbGet, h]
  | cons e rest ih =>
    obtain ⟨k'', v''⟩ := e
    by_cases h1 : k'' = k
    · subst h1
      by_cases h2 : k'' = k' <;> simp [fbSet, fbGet, h2]
    · by_cases h2 : k'' = k'
      · subst h2
        have hne : ¬k = k'' := fun hh => h1 hh.symm
        simp [fbSet, fbGet, h1, hne]
      · simp [fbSet, fbGet, h1, h2, ih]

theorem fbGet_eq_none (m : FallbackMap) (k : String) :
    fbGet m k = none ↔ k ∉ fbKeys m := by
  induction m with
  | nil => simp [fbGet, fbKeys]
  | cons e rest ih =>
    obtain ⟨k', v'⟩ := e
    by_cases h : k' = k
    · subst h; simp [fbGet, fbKeys]
    · have hne : ¬k = k' := fun hh => h hh.symm
      simp [fbGet, fbKeys, h, hne, ih]

theorem fbSet_eq_append (m : FallbackMap) (k : String)
    (v : Option PageMapNode) (h : fbGet m k = none) :
    fbSet m k v = m ++ [(k, v)] := by
  induction m with
  | nil => simp [fbSet]
  | cons e rest ih =>
    obtain ⟨k', v'⟩ := e
    by_cases h1 : k' = k
    · subst h1; simp [fbGet] at h
    · simp only [fbGet, if_neg h1] at h
      simp [fbSet, h1, ih h]

theorem fbKeys_cons (e : String × Option PageMapNode) (m : FallbackMap) :
    fbKeys (e :: m) = e.1 :: fbKeys m := rfl

theorem fbKeys_fbSet (m : FallbackMap) (k : String) (v : Option PageMapNode) :
    fbKeys (fbSet m k v) =
      if k ∈ fbKeys m then fbKeys m else fbKeys m ++ [k] := by
  induction m with
  | nil => simp [fbSet, fbKeys]
  | cons e rest ih =>
    obtain ⟨k', v'⟩ := e
    by_cases h1 : k' = k
    · subst h1; simp [fbSet, fbKeys]
    · have hne : ¬k = k' := fun hh => h1 hh.symm
      simp only [fbSet, if_neg h1, fbKeys_cons, ih]
      by_cases h2 : k ∈ fbKeys rest <;> simp [h2, hne]

theorem fbKeys_fbSet_nodup (m : FallbackMap) (k : String)
    (v : Option PageMapNode) (h : (fbKeys m).Nodup) :
    (fbKeys (fbSet m k v)).Nodup := by
  rw [fbKeys_fbSet]
  split
  · exact h
  · next hk => simp [List.nodup_append, h, hk]

theorem fbGet_of_mem (m : FallbackMap) (k : String) (v : Option PageMapNode)
    (hn : (fbKeys m).Nodup) (hm : (k, v) ∈ m) : fbGet m k = some v := by
  induction m with
  | nil => simp at hm
  | cons e rest ih =>
    obtain ⟨k', v'⟩ := e
    have hn' := List.nodup_cons.mp (by rw [fbKeys_cons] at hn; exact hn)
    rcases List.mem_cons.mp hm with heq | htail
    · injection heq with h1 h2
      subst h1; subst h2
      simp [fbGet]
    · have hkeys : k ∈ fbKeys rest :=
        List.mem_map_of_mem (fun q : String × Option PageMapNode => q.1) htail
      have hne : ¬k' = k := fun hh => hn'.1 (hh ▸ hkeys)
      simp [fbGet, hne, ih hn'.2 htail]

theorem fbAfter_cons_dir (p : PageMapNode) (hp : p.isDir = true)
    (rest : List PageMapNode) (L D : Option String) (fb : FallbackMap) :
    fbAfter (p :: rest) L D fb = fbAfter rest L D fb := by
  cases p with
  | dir n r cs => rfl
  | page n r lo f => simp [PageMapNode.isDir] at hp
  | metaFile n m lo => simp [PageMapNode.isDir] at hp

theorem fbAfter_cons_nondir (p : PageMapNode) (hp : p.isDir = false)
    (rest : List PageMapNode) (L D : Option String) (fb : FallbackMap) :
    fbAfter (p :: rest) L D fb =
      if localeMatches p L D then fbAfter rest L D (fbSet fb p.name none)
      else if decide (fbGet fb p.name ≠ some none) && fallbackCond p D then
        fbAfter rest L D (fbSet fb p.name (some p))
      else fbAfter rest L D fb := by
  cases p with
  | dir n r cs => simp [PageMapNode.isDir] at hp
  | page n r lo f => rfl
  | metaFile n m lo => rfl

theorem hasMatched_cons (p : PageMapNode) (rest : List PageMapNode)
    (L D : Option String) (n : String) :
    hasMatched (p :: rest) L D n =
      ((!p.isDir && localeMatches p L D && decide (p.name = n)) ||
        hasMatched rest L D n) := by
  simp [hasMatched]

theorem lastCand_cons (p : PageMapNode) (rest : List PageMapNode)
    (L D : Option String) (n : String) :
    lastCand (p :: rest) L D n =
      (match lastCand rest L D n with
       | some c => some c
       | none => if isCandFor L D n p then some p else none) := rfl

theorem fbAfter_keys_nodup (l : List PageMapNode) (L D : Option String)
    (fb : FallbackMap) (h : (fbKeys fb).Nodup) :
    (fbKeys (fbAfter l L D fb)).Nodup := by
  induction l generalizing fb with
  | nil => simpa [fbAfter] using h
  | cons p rest ih =>
    by_cases hd : p.isDir
    · rw [fbAfter_cons_dir p hd]; exact ih fb h
    · rw [fbAfter_cons_nondir p (by simpa using hd)]
      split
      · exact ih _ (fbKeys_fbSet_nodup fb p.name none h)
      · split
        · exact ih _ (fbKeys_fbSet_nodup fb p.name (some p) h)
        · exact ih fb h

/-- The final value of one name's slot in `fallbackPages`: `null` when an
exact match resolved the name, the unchanged incoming slot when it was
already `null` or no candidate appeared, otherwise the last fallback
candidate. -/
theorem fbGet_fbAfter (l : List PageMapNode) (L D : Option String)
    (fb : FallbackMap) (n : String) :
    fbGet (fbAfter l L D fb) n =
      if hasMatched l L D n then some none
      else if fbGet fb n = some none then some none
      else (lastCand l L D n).elim (fbGet fb n) (fun q => some (some q)) := by
  induction l generalizing fb with
  | nil =>
    simp only [fbAfter, hasMatched, List.any_nil, lastCand, Option.elim_none,
      Bool.false_eq_true, if_false]
    split
    · next h => exact h
    · rfl
  | cons p rest ih =>
    by_cases hd : p.isDir
    · rw [fbAfter_cons_dir p hd, ih, hasMatched_cons, lastCand_cons]
      cases hlc : lastCand rest L D n <;> simp [hd, isCandFor, hlc]
    · rw [fbAfter_cons_nondir p (by simpa using hd)]
      by_cases hM : localeMatches p L D
      · rw [if_pos hM]
        by_cases hn : p.name = n
        · rw [ih, hasMatched_cons]
          simp [hd, hM, hn, fbGet_fbSet]
        · rw [ih, hasMatched_cons, lastCand_cons]
          cases hlc : lastCand rest L D n <;>
            simp [hd, hM, hn, fbGet_fbSet, isCandFor, hlc]
      · rw [if_neg hM]
        by_cases hC : decide (fbGet fb p.name ≠ some none) && fallbackCond p D
        · rw [if_pos hC]
          have hC' : (fbGet fb p.name ≠ some none) ∧ fallbackCond p D = true := by
            constructor
            · exact of_decide_eq_true (Bool.and_elim_left hC)
            · exact Bool.and_elim_right hC
          by_cases hn : p.name = n
          · subst hn
            rw [ih, hasMatched_cons, lastCand_cons]
            simp only [fbGet_fbSet, if_pos rfl, hd, hM, isCandFor,
              Bool.not_false, Bool.false_and, Bool.and_false,
              Bool.false_or]
            by_cases hr : hasMatched rest L D p.name
            · simp [hr]
            · simp only [hr, Bool.false_eq_true, if_false, if_neg hC'.1]
              cases hlc : lastCand rest L D p.name with
              | some c => simp
              | none =>
                simp [isCandFor, hd, hM, hC'.2]
          · rw [ih, hasMatched_cons, lastCand_cons]
            cases hlc : lastCand rest L D n <;>
              simp [hd, hM, hn, fbGet_fbSet, isCandFor, hlc]
        · rw [if_neg hC]
          rw [ih, hasMatched_cons, lastCand_cons]
          by_cases hn : p.name = n
          · subst hn
            by_cases hget : fbGet fb p.name = some none
            · simp only [hd, hM, Bool.not_true, Bool.false_and,
                Bool.and_false, Bool.false_or, hget, if_pos rfl]
              split <;> rfl
            · have hcf : fallbackCond p D = false := by
                by_contra hx
                exact hC (by
                  rw [Bool.and_eq_true]
                  exact ⟨decide_eq_true hget, eq_true_of_ne_false hx⟩)
              cases hlc : lastCand rest L D p.name <;>
                simp [hd, hM, hget, isCandFor, hcf, hlc]
          · cases hlc : lastCand rest L D n <;>
              simp [hd, hM, hn, isCandFor, hlc]

/-! ## Lemmas: the for-in enumeration -/

theorem mem_insertNumeric (p a : String × Option PageMapNode)
    (m : FallbackMap) : a ∈ insertNumeric p m ↔ a = p ∨ a ∈ m := by
  induction m with
  | nil => simp [insertNumeric]
  | cons q rest ih =>
    by_cases h : keyNum p ≤ keyNum q
    · simp [insertNumeric, h]
    · simp [insertNumeric, h, ih]
      tauto

theorem insertNumeric_perm (p : String × Option PageMapNode)
    (m : FallbackMap) : (insertNumeric p m).Perm (p :: m) := by
  induction m with
  | nil => simp [insertNumeric]
  | cons q rest ih =>
    by_cases h : keyNum p ≤ keyNum q
    · simp [insertNumeric, h]
    · simp only [insertNumeric, if_neg h]
      exact (ih.cons q).trans (List.Perm.swap p q rest)

theorem sortNumeric_perm (m : FallbackMap) : (sortNumeric m).Perm m := by
  induction m with
  | nil => simp [sortNumeric]
  | cons q rest ih =>
    exact (insertNumeric_perm q (sortNumeric rest)).trans (ih.cons q)

theorem pairwise_insertNumeric (p : String × Option PageMapNode)
    (m : FallbackMap)
    (h : m.Pairwise fun a b => keyNum a ≤ keyNum b) :
    (insertNumeric p m).Pairwise fun a b => keyNum a ≤ keyNum b := by
  induction m with
  | nil => simp [insertNumeric]
  | cons q rest ih =>
    rcases List.pairwise_cons.mp h with ⟨hq, hrest⟩
    by_cases hle : keyNum p ≤ keyNum q
    · rw [insertNumeric, if_pos hle]
      refine List.pairwise_cons.mpr ⟨?_, h⟩
      intro b hb
      rcases List.mem_cons.mp hb with rfl | hb'
      · exact hle
      · exact le_trans hle (hq b hb')
    · rw [insertNumeric, if_neg hle]
      refine List.pairwise_cons.mpr ⟨?_, ih hrest⟩
      intro b hb
      rcases (mem_insertNumeric p b rest).mp hb with rfl | hb'
      · exact le_of_not_le hle
      · exact hq b hb'

theorem sortNumeric_pairwise (m : FallbackMap) :
    (sortNumeric m).Pairwise fun a b => keyNum a ≤ keyNum b := by
  induction m with
  | nil => simp [sortNumeric]
  | cons q rest ih => exact pairwise_insertNumeric q (sortNumeric rest) ih

theorem sortNumeric_of_pairwise (m : FallbackMap)
    (h : m.Pairwise fun a b => keyNum a ≤ keyNum b) : sortNumeric m = m := by
  induction m with
  | nil => rfl
  | cons q rest ih =>
    rcases List.pairwise_cons.mp h with ⟨hq, hrest⟩
    rw [sortNumeric, ih hrest]
    cases rest with
    | nil => rfl
    | cons b rest' =>
      rw [insertNumeric, if_pos (hq b (by simp))]

theorem filterMap_snd_insertNumeric_none (k : String) (m : FallbackMap) :
    (insertNumeric (k, none) m).filterMap (fun q => q.2) =
      m.filterMap (fun q => q.2) := by
  induction m with
  | nil => simp [insertNumeric]
  | cons q rest ih =>
    by_cases h : keyNum (k, none) ≤ keyNum q
    · simp [insertNumeric, h]
    · simp only [insertNumeric, if_neg h, List.filterMap_cons]
      cases q.2 <;> simp [ih]

theorem forInPairs_sub (m : FallbackMap) (a : String × Option PageMapNode)
    (h : a ∈ forInPairs m) : a ∈ m := by
  rcases List.mem_append.mp h with h1 | h2
  · exact List.mem_of_mem_filter ((sortNumeric_perm _).mem_iff.mp h1)
  · exact List.mem_of_mem_filter h2

theorem forInPairs_perm (m : FallbackMap) : (forInPairs m).Perm m := by
  refine ((sortNumeric_perm _).append_right _).trans ?_
  exact List.filter_append_perm _ m

theorem forInPairs_eq_self (m : FallbackMap)
    (h : ∀ e ∈ m, isArrayIndex e.1 = false) : forInPairs m = m := by
  have h1 : m.filter (fun q => isArrayIndex q.1) = [] := by
    rw [List.filter_eq_nil_iff]
    intro a ha
    simp [h a ha]
  have h2 : m.filter (fun q => !isArrayIndex q.1) = m := by
    rw [List.filter_eq_self]
    intro a ha
    simp [h a ha]
  rw [forInPairs, h1, h2]
  rfl

/-! ## Lemmas: invariants of the fallback map after the pass -/

theorem mem_fbSet (m : FallbackMap) (k : String) (v : Option PageMapNode)
    (e : String × Option PageMapNode) (he : e ∈ fbSet m k v) :
    e = (k, v) ∨ e ∈ m := by
  induction m with
  | nil => simpa [fbSet] using he
  | cons e' rest ih =>
    obtain ⟨k', v'⟩ := e'
    by_cases h : k' = k
    · subst h
      rw [fbSet, if_pos rfl] at he
      rcases List.mem_cons.mp he with rfl | htail
      · exact Or.inl rfl
      · exact Or.inr (List.mem_cons_of_mem _ htail)
    · rw [fbSet, if_neg h] at he
      rcases List.mem_cons.mp he with rfl | htail
      · exact Or.inr (List.mem_cons_self _ _)
      · rcases ih htail with h1 | h2
        · exact Or.inl h1
        · exact Or.inr (List.mem_cons_of_mem _ h2)

theorem fbAfter_append (a b : List PageMapNode) (L D : Option String)
    (fb : FallbackMap) :
    fbAfter (a ++ b) L D fb = fbAfter b L D (fbAfter a L D fb) := by
  induction a generalizing fb with
  | nil => rfl
  | cons p rest ih =>
    by_cases hd : p.isDir
    · rw [List.cons_append, fbAfter_cons_dir p hd, fbAfter_cons_dir p hd, ih]
    · have hd' : p.isDir = false := by simpa using hd
      rw [List.cons_append, fbAfter_cons_nondir p hd',
        fbAfter_cons_nondir p hd']
      by_cases hM : localeMatches p L D
      · rw [if_pos hM, if_pos hM, ih]
      · rw [if_neg hM, if_neg hM]
        by_cases hC : decide (fbGet fb p.name ≠ some none) && fallbackCond p D
        · rw [if_pos hC, if_pos hC, ih]
        · rw [if_neg hC, if_neg hC, ih]

theorem fbAfter_all_none (x : List PageMapNode) (L D : Option String)
    (fb : FallbackMap)
    (hx : ∀ q ∈ x, q.isDir = false → localeMatches q L D = true)
    (hfb : ∀ e ∈ fb, e.2 = none) :
    ∀ e ∈ fbAfter x L D fb, e.2 = none := by
  induction x generalizing fb with
  | nil => simpa [fbAfter] using hfb
  | cons p rest ih =>
    by_cases hd : p.isDir
    · rw [fbAfter_cons_dir p hd]
      exact ih fb (fun q hq => hx q (List.mem_cons_of_mem p hq)) hfb
    · have hd' : p.isDir = false := by simpa using hd
      rw [fbAfter_cons_nondir p hd',
        if_pos (hx p (List.mem_cons_self p rest) hd')]
      refine ih _ (fun q hq => hx q (List.mem_cons_of_mem p hq)) ?_
      intro e he
      rcases mem_fbSet fb p.name none e he with rfl | hmem
      · rfl
      · exact hfb e hmem

theorem fbKeys_fbAfter_sub (x : List PageMapNode) (L D : Option String)
    (fb : FallbackMap) (k : String)
    (hk : k ∈ fbKeys (fbAfter x L D fb)) :
    k ∈ fbKeys fb ∨ ∃ q ∈ x, q.isDir = false ∧ q.name = k := by
  induction x generalizing fb with
  | nil => exact Or.inl (by simpa [fbAfter] using hk)
  | cons p rest ih =>
    by_cases hd : p.isDir
    · rw [fbAfter_cons_dir p hd] at hk
      rcases ih fb hk with h1 | ⟨q, hq, hq2⟩
      · exact Or.inl h1
      · exact Or.inr ⟨q, List.mem_cons_of_mem p hq, hq2⟩
    · have hd' : p.isDir = false := by simpa using hd
      rw [fbAfter_cons_nondir p hd'] at hk
      have step : ∀ v : Option PageMapNode,
          k ∈ fbKeys (fbAfter rest L D (fbSet fb p.name v)) →
          k ∈ fbKeys fb ∨ ∃ q ∈ p :: rest, q.isDir = false ∧ q.name = k := by
        intro v hv
        rcases ih _ hv with h1 | ⟨q, hq, hq2⟩
        · rw [fbKeys_fbSet] at h1
          split at h1
          · exact Or.inl h1
          · rcases List.mem_append.mp h1 with h2 | h2
            · exact Or.inl h2
            · refine Or.inr ⟨p, List.mem_cons_self p rest, hd', ?_⟩
              exact (List.mem_singleton.mp h2).symm
        · exact Or.inr ⟨q, List.mem_cons_of_mem p hq, hq2⟩
      split at hk
      · exact step none hk
      · split at hk
        · exact step (some p) hk
        · rcases ih fb hk with h1 | ⟨q, hq, hq2⟩
          · exact Or.inl h1
          · exact Or.inr ⟨q, List.mem_cons_of_mem p hq, hq2⟩

theorem fbAfter_val_name (x : List PageMapNode) (L D : Option String)
    (fb : FallbackMap)
    (hfb : ∀ e ∈ fb, ∀ q, e.2 = some q → q.name = e.1) :
    ∀ e ∈ fbAfter x L D fb, ∀ q, e.2 = some q → q.name = e.1 := by
  induction x generalizing fb with
  | nil => simpa [fbAfter] using hfb
  | cons p rest ih =>
    by_cases hd : p.isDir
    · rw [fbAfter_cons_dir p hd]; exact ih fb hfb
    · have hd' : p.isDir = false := by simpa using hd
      rw [fbAfter_cons_nondir p hd']
      have step : ∀ v : Option PageMapNode,
          (∀ q : PageMapNode, v = some q → q.name = p.name) →
          ∀ e ∈ fbAfter rest L D (fbSet fb p.name v), ∀ q, e.2 = some q →
            q.name = e.1 := by
        intro v hv
        refine ih _ ?_
        intro e he q heq
        rcases mem_fbSet fb p.name v e he with rfl | hmem
        · exact hv q heq
        · exact hfb e hmem q heq
      split
      · exact step none (by intro q h; cases h)
      · split
        · exact step (some p) (by intro q h; injection h with h; rw [h])
        · exact ih fb hfb

theorem isCandFor_spec (L D : Option String) (n : String) (q : PageMapNode)
    (h : isCandFor L D n q = true) :
    q.isDir = false ∧ localeMatches q L D = false ∧
      fallbackCond q D = true ∧ q.name = n := by
  simp only [isCandFor, Bool.and_eq_true, Bool.not_eq_true',
    decide_eq_true_eq] at h
  exact ⟨h.1.1.1, h.1.1.2, h.1.2, h.2⟩

theorem lastCand_props (l : List PageMapNode) (L D : Option String)
    (n : String) (q : PageMapNode) (h : lastCand l L D n = some q) :
    q ∈ l ∧ isCandFor L D n q = true := by
  induction l with
  | nil => simp [lastCand] at h
  | cons p rest ih =>
    rw [lastCand_cons] at h
    cases hlc : lastCand rest L D n with
    | some c =>
      rw [hlc] at h
      injection h with h
      subst h
      rcases ih hlc with ⟨h1, h2⟩
      exact ⟨List.mem_cons_of_mem p h1, h2⟩
    | none =>
      rw [hlc] at h
      by_cases hc : isCandFor L D n p = true
      · rw [if_pos hc] at h
        injection h with h
        subst h
        exact ⟨List.mem_cons_self p rest, hc⟩
      · rw [if_neg hc] at h
        cases h

/-- Every node appended by the `for ... in` loop is a surviving fallback
candidate: it occurs in the directory, it is a non-directory
non-matching fallback-qualifying node, its name was never resolved by an
exact match, and it is the last candidate of its name. -/
theorem mem_fbOut (l : List PageMapNode) (L D : Option String)
    (q : PageMapNode) (hq : q ∈ fbOut l L D) :
    q ∈ l ∧ isCandFor L D q.name q = true ∧
      hasMatched l L D q.name = false ∧ lastCand l L D q.name = some q := by
  rcases List.mem_filterMap.mp (by exact hq) with ⟨e, he, hev⟩
  have heM : e ∈ fbAfter l L D [] := forInPairs_sub _ e he
  have hnodup : (fbKeys (fbAfter l L D [])).Nodup :=
    fbAfter_keys_nodup l L D [] (by simp [fbKeys])
  have hget : fbGet (fbAfter l L D []) e.1 = some e.2 := by
    exact fbGet_of_mem _ _ _ hnodup (by rwa [show (e.1, e.2) = e from rfl])
  rw [fbGet_fbAfter] at hget
  have hnil : fbGet ([] : FallbackMap) e.1 = none := rfl
  rw [hnil] at hget
  simp only [hev] at hget
  by_cases hm : hasMatched l L D e.1
  · rw [if_pos hm] at hget
    injection hget with hget
    cases hget
  · rw [if_neg hm] at hget
    rw [if_neg (by simp : ¬(none : Option (Option PageMapNode)) = some none)]
      at hget
    cases hlc : lastCand l L D e.1 with
    | none => rw [hlc] at hget; simp at hget
    | some c =>
      rw [hlc] at hget
      simp only [Option.elim_some, Option.some.injEq] at hget
      rcases lastCand_props l L D e.1 c hlc with ⟨h1, h2⟩
      have hname : c.name = e.1 := (isCandFor_spec L D e.1 c h2).2.2.2
      rw [← hget, hname]
      exact ⟨h1, h2, by simpa using hm, hlc⟩

/-! ## Lemmas: the pushed part of the output -/

theorem mainOut_append (a b : List PageMapNode) (L D : Option String) :
    mainOut (a ++ b) L D = mainOut a L D ++ mainOut b L D := by
  simp [mainOut, List.filterMap_append]

theorem mem_mainOut (l : List PageMapNode) (L D : Option String)
    (q : PageMapNode) (hq : q ∈ mainOut l L D) :
    (∃ n r cs, PageMapNode.dir n r cs ∈ l ∧
        q = PageMapNode.dir n r (filterRouteLocale cs L D)) ∨
      (q ∈ l ∧ q.isDir = false ∧ localeMatches q L D = true) := by
  rcases List.mem_filterMap.mp hq with ⟨p, hp, hpq⟩
  cases p with
  | dir n r cs =>
    left
    refine ⟨n, r, cs, hp, ?_⟩
    injection hpq with h
    exact h.symm
  | page n r lo f =>
    right
    have hpq' : (if localeMatches (.page n r lo f) L D then
        some (PageMapNode.page n r lo f) else none) = some q := hpq
    by_cases hM : localeMatches (.page n r lo f) L D
    · rw [if_pos hM] at hpq'
      injection hpq' with h
      subst h
      exact ⟨hp, rfl, hM⟩
    · rw [if_neg hM] at hpq'
      cases hpq'
  | metaFile n m lo =>
    right
    have hpq' : (if localeMatches (.metaFile n m lo) L D then
        some (PageMapNode.metaFile n m lo) else none) = some q := hpq
    by_cases hM : localeMatches (.metaFile n m lo) L D
    · rw [if_pos hM] at hpq'
      injection hpq' with h
      subst h
      exact ⟨hp, rfl, hM⟩
    · rw [if_neg hM] at hpq'
      cases hpq'

theorem mainOut_nondir_matches (l : List PageMapNode) (L D : Option String)
    (q : PageMapNode) (hq : q ∈ mainOut l L D) (hd : q.isDir = false) :
    localeMatches q L D = true := by
  rcases mem_mainOut l L D q hq with ⟨n, r, cs, _, rfl⟩ | ⟨_, _, h⟩
  · simp [PageMapNode.isDir] at hd
  · exact h

theorem mainOut_nil_of (xs : List PageMapNode) (L D : Option String)
    (h : ∀ q ∈ xs, q.isDir = false ∧ localeMatches q L D = false) :
    mainOut xs L D = [] := by
  induction xs with
  | nil => rfl
  | cons p rest ih =>
    have hp := h p (List.mem_cons_self p rest)
    have htail := ih fun q hq => h q (List.mem_cons_of_mem p hq)
    cases p with
    | dir n r cs => simp [PageMapNode.isDir] at hp
    | page n r lo f =>
      simp only [mainOut, List.filterMap_cons] at htail ⊢
      rw [if_neg (by simp [hp.2])]
      exact htail
    | metaFile n m lo =>
      simp only [mainOut, List.filterMap_cons] at htail ⊢
      rw [if_neg (by simp [hp.2])]
      exact htail

theorem mainOut_mainOut (l : List PageMapNode) (L D : Option String)
    (ih : ∀ n r cs, PageMapNode.dir n r cs ∈ l →
      filterRouteLocale (filterRouteLocale cs L D) L D =
        filterRouteLocale cs L D) :
    mainOut (mainOut l L D) L D = mainOut l L D := by
  induction l with
  | nil => rfl
  | cons p rest ihl =>
    have ih' : ∀ n r cs, PageMapNode.dir n r cs ∈ rest →
        filterRouteLocale (filterRouteLocale cs L D) L D =
          filterRouteLocale cs L D :=
      fun n r cs h => ih n r cs (List.mem_cons_of_mem p h)
    cases p with
    | dir n r cs =>
      have hhead := ih n r cs (List.mem_cons_self _ rest)
      simp only [mainOut, List.filterMap_cons] at ihl ⊢
      simp only [hhead, ihl ih']
    | page n r lo f =>
      by_cases hM : localeMatches (.page n r lo f) L D
      · simp only [mainOut, List.filterMap_cons, if_pos hM] at ihl ⊢
        simp only [if_pos hM, ihl ih']
      · simp only [mainOut, List.filterMap_cons, if_neg hM] at ihl ⊢
        exact ihl ih'
    | metaFile n m lo =>
      by_cases hM : localeMatches (.metaFile n m lo) L D
      · simp only [mainOut, List.filterMap_cons, if_pos hM] at ihl ⊢
        simp only [if_pos hM, ihl ih']
      · simp only [mainOut, List.filterMap_cons, if_neg hM] at ihl ⊢
        exact ihl ih'

/-! ## Lemmas: reprocessing the appended fallbacks -/

theorem fbGet_append (m1 m2 : FallbackMap) (k : String) :
    fbGet (m1 ++ m2) k =
      match fbGet m1 k with
      | some v => some v
      | none => fbGet m2 k := by
  induction m1 with
  | nil => rfl
  | cons e rest ih =>
    obtain ⟨k', v'⟩ := e
    by_cases h : k' = k <;> simp [fbGet, h, ih]

theorem filterMap_snd_all_none (s : FallbackMap)
    (h : ∀ e ∈ s, e.2 = none) : s.filterMap (fun e => e.2) = [] := by
  induction s with
  | nil => rfl
  | cons e rest ih =>
    have he := h e (List.mem_cons_self e rest)
    simp [List.filterMap_cons, he,
      ih fun x hx => h x (List.mem_cons_of_mem e hx)]

theorem filterMap_snd_map_mk (fs : List PageMapNode) :
    (fs.map fun f => (f.name, (some f : Option PageMapNode))).filterMap
      (fun e => e.2) = fs := by
  induction fs with
  | nil => rfl
  | cons f rest ih => simp [List.filterMap_cons, ih]

theorem filterMap_snd_names_sub (s : FallbackMap)
    (hval : ∀ e ∈ s, ∀ q, e.2 = some q → q.name = e.1) :
    ∀ x ∈ (s.filterMap (fun e => e.2)).map PageMapNode.name, x ∈ fbKeys s := by
  intro x hx
  rcases List.mem_map.mp hx with ⟨f, hf, rfl⟩
  rcases List.mem_filterMap.mp hf with ⟨e, he, hev⟩
  rw [hval e he f hev]
  exact List.mem_map_of_mem _ he

theorem filterMap_snd_names_nodup (s : FallbackMap)
    (hkeys : (fbKeys s).Nodup)
    (hval : ∀ e ∈ s, ∀ q, e.2 = some q → q.name = e.1) :
    ((s.filterMap (fun e => e.2)).map PageMapNode.name).Nodup := by
  induction s with
  | nil => simp
  | cons e rest ih =>
    have hk := List.nodup_cons.mp (by rwa [fbKeys_cons] at hkeys)
    have hval' : ∀ e' ∈ rest, ∀ q, e'.2 = some q → q.name = e'.1 :=
      fun e' he' => hval e' (List.mem_cons_of_mem e he')
    cases hv : e.2 with
    | none => simpa [List.filterMap_cons, hv] using ih hk.2 hval'
    | some q =>
      have hq : q.name = e.1 := hval e (List.mem_cons_self e rest) q hv
      simp only [List.filterMap_cons, hv, List.map_cons]
      refine List.nodup_cons.mpr ⟨?_, ih hk.2 hval'⟩
      rw [hq]
      intro hmem
      exact hk.1 (filterMap_snd_names_sub rest hval' e.1 hmem)

theorem fbAfter_candidates (fs : List PageMapNode) (L D : Option String)
    (m : FallbackMap)
    (hprop : ∀ f ∈ fs, f.isDir = false ∧ localeMatches f L D = false ∧
      fallbackCond f D = true)
    (habs : ∀ f ∈ fs, fbGet m f.name = none)
    (hnd : (fs.map PageMapNode.name).Nodup) :
    fbAfter fs L D m =
      m ++ fs.map fun f => (f.name, (some f : Option PageMapNode)) := by
  induction fs generalizing m with
  | nil => simp [fbAfter]
  | cons f rest ih =>
    have hf := hprop f (List.mem_cons_self f rest)
    have hnd' := List.nodup_cons.mp (by rw [List.map_cons] at hnd; exact hnd)
    have hget := habs f (List.mem_cons_self f rest)
    have hcond : (decide (fbGet m f.name ≠ some none) &&
        fallbackCond f D) = true := by
      rw [Bool.and_eq_true]
      exact ⟨decide_eq_true (by simp [hget]), hf.2.2⟩
    rw [fbAfter_cons_nondir f hf.1, if_neg (by simp [hf.2.1]), if_pos hcond,
      fbSet_eq_append m f.name (some f) hget]
    have hprop' : ∀ g ∈ rest, g.isDir = false ∧
        localeMatches g L D = false ∧ fallbackCond g D = true :=
      fun g hg => hprop g (List.mem_cons_of_mem f hg)
    have habs' : ∀ g ∈ rest,
        fbGet (m ++ [(f.name, some f)]) g.name = none := by
      intro g hg
      rw [fbGet_append, habs g (List.mem_cons_of_mem f hg)]
      have hne : ¬f.name = g.name :=
        fun hh => hnd'.1 (hh ▸ List.mem_map_of_mem PageMapNode.name hg)
      simp [fbGet, hne]
    rw [ih _ hprop' habs' hnd'.2, List.append_assoc]
    rfl

theorem filterMap_snd_sort_null_prefix (a b : FallbackMap)
    (ha : ∀ e ∈ a, e.2 = none) :
    (sortNumeric (a ++ b)).filterMap (fun e => e.2) =
      (sortNumeric b).filterMap (fun e => e.2) := by
  induction a with
  | nil => rfl
  | cons e rest ih =>
    obtain ⟨k, v⟩ := e
    have he : v = none := ha (k, v) (List.mem_cons_self _ rest)
    subst he
    rw [List.cons_append, sortNumeric, filterMap_snd_insertNumeric_none]
    exact ih fun x hx => ha x (List.mem_cons_of_mem _ hx)

theorem map_mk_pairwise (s : FallbackMap)
    (hval : ∀ e ∈ s, ∀ q, e.2 = some q → q.name = e.1)
    (hs : s.Pairwise fun a b => keyNum a ≤ keyNum b) :
    ((s.filterMap (fun e => e.2)).map fun f =>
        (f.name, (some f : Option PageMapNode))).Pairwise
      (fun a b => keyNum a ≤ keyNum b) := by
  induction s with
  | nil => simp
  | cons e rest ih =>
    rcases List.pairwise_cons.mp hs with ⟨he, hrest⟩
    have hval' : ∀ e' ∈ rest, ∀ q, e'.2 = some q → q.name = e'.1 :=
      fun e' h' => hval e' (List.mem_cons_of_mem e h')
    cases hv : e.2 with
    | none => simpa [List.filterMap_cons, hv] using ih hval' hrest
    | some q =>
      have hq : q.name = e.1 := hval e (List.mem_cons_self e rest) q hv
      simp only [List.filterMap_cons, hv, List.map_cons]
      refine List.pairwise_cons.mpr ⟨?_, ih hval' hrest⟩
      intro b hb
      rcases List.mem_map.mp hb with ⟨g, hg, rfl⟩
      rcases List.mem_filterMap.mp hg with ⟨e', he', hev'⟩
      have hg' : g.name = e'.1 := hval' e' he' g hev'
      simp only [keyNum, hq, hg']
      exact he e' he'

/-- Filtering an already-filtered directory appends the same fallbacks:
the reprocessed fallback candidates re-enter the object in enumeration
order and are enumerated identically. -/
theorem fbOut_pass2 (l : List PageMapNode) (L D : Option String) :
    fbOut (filterRouteLocale l L D) L D = fbOut l L D := by
  have hval1 : ∀ e ∈ fbAfter l L D [], ∀ q, e.2 = some q → q.name = e.1 :=
    fbAfter_val_name l L D [] (by intro e he; cases he)
  have hnodup1 : (fbKeys (fbAfter l L D [])).Nodup :=
    fbAfter_keys_nodup l L D [] (by simp [fbKeys])
  have hprop : ∀ f ∈ fbOut l L D, f.isDir = false ∧
      localeMatches f L D = false ∧ fallbackCond f D = true := by
    intro f hf
    rcases mem_fbOut l L D f hf with ⟨_, hc, _, _⟩
    have hs := isCandFor_spec L D f.name f hc
    exact ⟨hs.1, hs.2.1, hs.2.2.1⟩
  have hNnone : ∀ e ∈ fbAfter (mainOut l L D) L D [], e.2 = none :=
    fbAfter_all_none (mainOut l L D) L D []
      (fun q hq hdq => mainOut_nondir_matches l L D q hq hdq)
      (by intro e he; cases he)
  have habs : ∀ f ∈ fbOut l L D,
      fbGet (fbAfter (mainOut l L D) L D []) f.name = none := by
    intro f hf
    rcases mem_fbOut l L D f hf with ⟨_, _, hnm, _⟩
    rw [fbGet_eq_none]
    intro hmem
    rcases fbKeys_fbAfter_sub (mainOut l L D) L D [] f.name hmem with
      h1 | ⟨q, hq, hqd, hqn⟩
    · simp [fbKeys] at h1
    · have hqm : localeMatches q L D = true :=
        mainOut_nondir_matches l L D q hq hqd
      rcases mem_mainOut l L D q hq with ⟨n, r, cs, _, rfl⟩ | ⟨hql, _, _⟩
      · simp [PageMapNode.isDir] at hqd
      · have hcontra : hasMatched l L D f.name = true := by
          unfold hasMatched
          rw [List.any_eq_true]
          exact ⟨q, hql, by simp [hqd, hqm, hqn]⟩
        rw [hcontra] at hnm
        cases hnm
  have hnd : ((fbOut l L D).map PageMapNode.name).Nodup := by
    refine filterMap_snd_names_nodup (forInPairs (fbAfter l L D [])) ?_ ?_
    · have hperm := (forInPairs_perm (fbAfter l L D [])).map
        (fun e : String × Option PageMapNode => e.1)
      exact hperm.nodup_iff.mpr hnodup1
    · intro e he
      exact hval1 e (forInPairs_sub _ e he)
  -- the split of the first-pass fallbacks into numeric and other names
  have hsplit : fbOut l L D =
      ((sortNumeric ((fbAfter l L D []).filter fun e =>
        isArrayIndex e.1)).filterMap fun e => e.2) ++
      (((fbAfter l L D []).filter fun e =>
        !isArrayIndex e.1).filterMap fun e => e.2) := by
    unfold fbOut forInPairs
    rw [List.filterMap_append]
  have hAnum : ∀ f ∈ (sortNumeric ((fbAfter l L D []).filter fun e =>
      isArrayIndex e.1)).filterMap (fun e => e.2),
      isArrayIndex f.name = true := by
    intro f hf
    rcases List.mem_filterMap.mp hf with ⟨e, he, hev⟩
    have heM := (sortNumeric_perm _).subset he
    rw [hval1 e (List.mem_filter.mp heM).1 f hev]
    exact (List.mem_filter.mp heM).2
  have hBnum : ∀ f ∈ ((fbAfter l L D []).filter fun e =>
      !isArrayIndex e.1).filterMap (fun e => e.2),
      isArrayIndex f.name = false := by
    intro f hf
    rcases List.mem_filterMap.mp hf with ⟨e, he, hev⟩
    rw [hval1 e (List.mem_filter.mp he).1 f hev]
    simpa using (List.mem_filter.mp he).2
  -- rewrite the left-hand side
  rw [filterRouteLocale_eq l L D]
  conv_lhs => rw [fbOut]
  rw [fbAfter_append,
    fbAfter_candidates (fbOut l L D) L D _ hprop habs hnd]
  rw [hsplit]
  -- make the three building blocks opaque
  generalize hA : (sortNumeric ((fbAfter l L D []).filter fun e =>
    isArrayIndex e.1)).filterMap (fun e => e.2) = A at hAnum hsplit ⊢
  generalize hB : ((fbAfter l L D []).filter fun e =>
    !isArrayIndex e.1).filterMap (fun e => e.2) = B at hBnum hsplit ⊢
  generalize hNG : fbAfter (mainOut l L D) L D [] = N at hNnone ⊢
  have hsorted : ((A ++ B).map fun f =>
      (f.name, (some f : Option PageMapNode))).filter
        (fun q => isArrayIndex q.1) =
      A.map fun f => (f.name, (some f : Option PageMapNode)) := by
    rw [List.map_append, List.filter_append]
    rw [List.filter_eq_self.mpr (by
      intro e he
      rcases List.mem_map.mp he with ⟨f, hf, rfl⟩
      simpa using hAnum f hf)]
    rw [List.filter_eq_nil_iff.mpr (by
      intro e he
      rcases List.mem_map.mp he with ⟨f, hf, rfl⟩
      simpa using hBnum f hf)]
    rw [List.append_nil]
  have hother : ((A ++ B).map fun f =>
      (f.name, (some f : Option PageMapNode))).filter
        (fun q => !isArrayIndex q.1) =
      B.map fun f => (f.name, (some f : Option PageMapNode)) := by
    rw [List.map_append, List.filter_append]
    rw [List.filter_eq_nil_iff.mpr (by
      intro e he
      rcases List.mem_map.mp he with ⟨f, hf, rfl⟩
      simpa using hAnum f hf)]
    rw [List.filter_eq_self.mpr (by
      intro e he
      rcases List.mem_map.mp he with ⟨f, hf, rfl⟩
      simpa using hBnum f hf)]
    rw [List.nil_append]
  have hApw : ((A.map fun f =>
      (f.name, (some f : Option PageMapNode)))).Pairwise
        (fun a b => keyNum a ≤ keyNum b) := by
    rw [← hA]
    refine map_mk_pairwise _ ?_ (sortNumeric_pairwise _)
    intro e he q heq
    exact hval1 e (List.mem_filter.mp ((sortNumeric_perm _).subset he)).1
      q heq
  rw [forInPairs, List.filter_append, List.filter_append, hsorted, hother,
    List.filterMap_append,
    filterMap_snd_sort_null_prefix _ _
      (fun e he => hNnone e (List.mem_of_mem_filter he)),
    List.filterMap_append,
    filterMap_snd_all_none _
      (fun e he => hNnone e (List.mem_of_mem_filter he)),
    List.nil_append,
    sortNumeric_of_pairwise _ hApw,
    filterMap_snd_map_mk, filterMap_snd_map_mk]

theorem sizeOf_children_lt (l : List PageMapNode) (n r : String)
    (cs : List PageMapNode) (h : PageMapNode.dir n r cs ∈ l) :
    sizeOf cs < sizeOf l := by
  induction l with
  | nil => cases h
  | cons p rest ih =>
    rcases List.mem_cons.mp h with heq | htail
    · rw [← heq]
      simp
      omega
    · have h1 := ih htail
      simp
      omega

theorem filterRouteLocale_idem_aux :
    ∀ (N : Nat) (l : List PageMapNode) (L D : Option String), sizeOf l ≤ N →
      filterRouteLocale (filterRouteLocale l L D) L D =
        filterRouteLocale l L D := by
  intro N
  induction N with
  | zero =>
    intro l L D h
    cases l with
    | nil => simp at h
    | cons p rest => simp at h
  | succ N ih =>
    intro l L D h
    have ihc : ∀ n r cs, PageMapNode.dir n r cs ∈ l →
        filterRouteLocale (filterRouteLocale cs L D) L D =
          filterRouteLocale cs L D := by
      intro n r cs hmem
      exact ih cs L D (by have := sizeOf_children_lt l n r cs hmem; omega)
    rw [filterRouteLocale_eq (filterRouteLocale l L D) L D, fbOut_pass2,
      filterRouteLocale_eq l L D, mainOut_append,
      mainOut_mainOut l L D ihc,
      mainOut_nil_of (fbOut l L D) L D (by
        intro q hq
        rcases mem_fbOut l L D q hq with ⟨_, hc, _, _⟩
        have hs := isCandFor_spec L D q.name q hc
        exact ⟨hs.1, hs.2.1⟩),
      List.append_nil]

/-! ## Lemmas: agreement with the specification's two-phase algorithm -/

theorem localeMatches_eq_specExact (p : PageMapNode) (L D : String)
    (hL : L ≠ "") (hp : p.locale ≠ some "") :
    localeMatches p (some L) (some D) = specExact p L D := by
  unfold localeMatches specExact isDefaultLocaleB strFalsy
  cases hlo : p.locale with
  | none => simp [hL]
  | some s =>
    have hs : s ≠ "" := fun hh => hp (by rw [hlo, hh])
    simp [hL, hs]

theorem fallbackCond_eq_specCandCond (p : PageMapNode) (D : String)
    (hp : p.locale ≠ some "") :
    fallbackCond p (some D) = specCandCond p D := by
  unfold fallbackCond specCandCond strFalsy
  cases hlo : p.locale with
  | none => simp
  | some s =>
    have hs : s ≠ "" := fun hh => hp (by rw [hlo, hh])
    simp [hs]

theorem fbAfter_eq_specPass (l : List PageMapNode) (L D : String)
    (fb : FallbackMap) (hnd : ∀ p ∈ l, p.isDir = false) (hL : L ≠ "")
    (hloc : ∀ p ∈ l, p.locale ≠ some "") :
    fbAfter l (some L) (some D) fb = specFallbackPass l L D fb := by
  induction l generalizing fb with
  | nil => rfl
  | cons p rest ih =>
    have hd := hnd p (List.mem_cons_self p rest)
    have hl := hloc p (List.mem_cons_self p rest)
    have hnd' : ∀ q ∈ rest, q.isDir = false :=
      fun q hq => hnd q (List.mem_cons_of_mem p hq)
    have hloc' : ∀ q ∈ rest, q.locale ≠ some "" :=
      fun q hq => hloc q (List.mem_cons_of_mem p hq)
    rw [fbAfter_cons_nondir p hd,
      localeMatches_eq_specExact p L D hL hl,
      fallbackCond_eq_specCandCond p D hl]
    show _ = specFallbackPass (p :: rest) L D fb
    rw [specFallbackPass]
    by_cases h1 : specExact p L D
    · rw [if_pos h1, if_pos h1, ih _ hnd' hloc']
    · rw [if_neg h1, if_neg h1]
      by_cases h2 : decide (fbGet fb p.name ≠ some none) && specCandCond p D
      · rw [if_pos h2, if_pos h2, ih _ hnd' hloc']
      · rw [if_neg h2, if_neg h2, ih _ hnd' hloc']

theorem mainOut_eq_spec_filter (l : List PageMapNode) (L D : String)
    (hnd : ∀ p ∈ l, p.isDir = false) (hL : L ≠ "")
    (hloc : ∀ p ∈ l, p.locale ≠ some "") :
    mainOut l (some L) (some D) = l.filter fun p => specExact p L D := by
  induction l with
  | nil => rfl
  | cons p rest ih =>
    have hd := hnd p (List.mem_cons_self p rest)
    have hl := hloc p (List.mem_cons_self p rest)
    have ih' := ih (fun q hq => hnd q (List.mem_cons_of_mem p hq))
      (fun q hq => hloc q (List.mem_cons_of_mem p hq))
    cases p with
    | dir n r cs => simp [PageMapNode.isDir] at hd
    | page n r lo f =>
      have hstep : mainOut (PageMapNode.page n r lo f :: rest)
          (some L) (some D) =
          (if localeMatches (.page n r lo f) (some L) (some D) then
            some (PageMapNode.page n r lo f) else none).toList ++
            mainOut rest (some L) (some D) := by
        cases hM : localeMatches (.page n r lo f) (some L) (some D) <;>
          simp [mainOut, List.filterMap_cons, hM]
      rw [hstep, localeMatches_eq_specExact _ L D hL hl, ih',
        List.filter_cons]
      cases hE : specExact (PageMapNode.page n r lo f) L D <;> simp [hE]
    | metaFile n m lo =>
      have hstep : mainOut (PageMapNode.metaFile n m lo :: rest)
          (some L) (some D) =
          (if localeMatches (.metaFile n m lo) (some L) (some D) then
            some (PageMapNode.metaFile n m lo) else none).toList ++
            mainOut rest (some L) (some D) := by
        cases hM : localeMatches (.metaFile n m lo) (some L) (some D) <;>
          simp [mainOut, List.filterMap_cons, hM]
      rw [hstep, localeMatches_eq_specExact _ L D hL hl, ih',
        List.filter_cons]
      cases hE : specExact (PageMapNode.metaFile n m lo) L D <;> simp [hE]

theorem forInPairs_fbAfter_eq (l : List PageMapNode) (L D : Option String)
    (hnames : ∀ p ∈ l, isArrayIndex p.name = false) :
    forInPairs (fbAfter l L D []) = fbAfter l L D [] := by
  apply forInPairs_eq_self
  intro e he
  have hk : e.1 ∈ fbKeys (fbAfter l L D []) := List.mem_map_of_mem _ he
  rcases fbKeys_fbAfter_sub l L D [] e.1 hk with h1 | ⟨q, hq, _, hqn⟩
  · simp [fbKeys] at h1
  · rw [← hqn]
    exact hnames q hq

theorem isDir_dir (n r : String) (cs : List PageMapNode) :
    (PageMapNode.dir n r cs).isDir = true := rfl

theorem isDir_page (n r : String) (lo : Option String)
    (f : Option (List (String × String))) :
    (PageMapNode.page n r lo f).isDir = false := rfl

theorem isDir_metaFile (n : String) (m : List (String × String))
    (lo : Option String) :
    (PageMapNode.metaFile n m lo).isDir = false := rfl

theorem mainOut_filter_dirs (l : List PageMapNode) (L D : Option String) :
    (mainOut l L D).filter (fun p => p.isDir) =
      (l.filter fun p => p.isDir).map fun p =>
        match p with
        | .dir n r cs => .dir n r (filterRouteLocale cs L D)
        | q => q := by
  induction l with
  | nil => rfl
  | cons p rest ih =>
    cases p with
    | dir n r cs =>
      simp only [mainOut, List.filterMap_cons] at ih ⊢
      simp [List.filter_cons, isDir_dir, ih]
    | page n r lo f =>
      have hstep : mainOut (PageMapNode.page n r lo f :: rest) L D =
          (if localeMatches (.page n r lo f) L D then
            some (PageMapNode.page n r lo f) else none).toList ++
            mainOut rest L D := by
        cases hM : localeMatches (.page n r lo f) L D <;>
          simp [mainOut, List.filterMap_cons, hM]
      rw [hstep]
      cases hM : localeMatches (.page n r lo f) L D <;>
        simp [hM, List.filter_cons, isDir_page, ih]
    | metaFile n m lo =>
      have hstep : mainOut (PageMapNode.metaFile n m lo :: rest) L D =
          (if localeMatches (.metaFile n m lo) L D then
            some (PageMapNode.metaFile n m lo) else none).toList ++
            mainOut rest L D := by
        cases hM : localeMatches (.metaFile n m lo) L D <;>
          simp [mainOut, List.filterMap_cons, hM]
      rw [hstep]
      cases hM : localeMatches (.metaFile n m lo) L D <;>
        simp [hM, List.filter_cons, isDir_metaFile, ih]

/-- C1, counterexample: in a directory of two locale-less siblings named
`2` and `1` (in that enumeration order), filtering for a locale with
default `en` yields the fallbacks in ascending numeric key order `1`,
`2` — not in the order their names were first introduced, because
`for ... in` enumerates canonical array-index keys first, numerically.
The specification-side algorithm yields the first-introduction order. -/
theorem claim_C1_counterexample :
    filterRouteLocale [exN2, exN1] (some "de") (some "en") = [exN1, exN2] ∧
      filterRouteLocale [exN2, exN1] (some "de") (some "en") ≠
        [exN2, exN1] ∧
      specFilterSiblings [exN2, exN1] "de" "en" = [exN2, exN1] := by
  refine ⟨?_, ?_, by decide⟩
  · rw [filterRouteLocale_eq]; decide
  · rw [filterRouteLocale_eq]; decide

/-- C1 (amended): for every sequence of non-directory siblings whose
locale tags are not the empty string, every nonempty request locale `L`
and default locale `D`, provided additionally that no sibling's name is a
canonical array-index string (for such names `for ... in` enumerates keys
numerically first), `filterRouteLocale` returns exactly the claim's
two-phase result `specFilterSiblings`: the exact matches in enumeration
order, each resolving its name, followed by each unresolved name's last
locale-absent-or-default fallback candidate in first-introduction order.
In particular, for siblings `[a.md, a.en.md, a.fr.md]` with default `en`,
filtering for `fr` yields only `a.fr.md` and filtering for `de` yields
only `a.en.md`. -/
theorem claim_C1_filter_matches_spec (l : List PageMapNode) (L D : String)
    (hnd : ∀ p ∈ l, p.isDir = false) (hL : L ≠ "")
    (hloc : ∀ p ∈ l, p.locale ≠ some "")
    (hnames : ∀ p ∈ l, isArrayIndex p.name = false) :
    filterRouteLocale l (some L) (some D) = specFilterSiblings l L D ∧
      filterRouteLocale [exA, exAen, exAfr] (some "fr") (some "en") =
        [exAfr] ∧
      filterRouteLocale [exA, exAen, exAfr] (some "de") (some "en") =
        [exAen] := by
  refine ⟨?_, ?_, ?_⟩
  · rw [filterRouteLocale_eq, fbOut, forInPairs_fbAfter_eq l _ _ hnames,
      mainOut_eq_spec_filter l L D hnd hL hloc,
      fbAfter_eq_specPass l L D [] hnd hL hloc]
    rfl
  · rw [filterRouteLocale_eq]; decide
  · rw [filterRouteLocale_eq]; decide

/-- Witness for C1 at the spec's example directory and locale `fr`. -/
theorem claim_C1_witness :
    filterRouteLocale [exA, exAen, exAfr] (some "fr") (some "en") =
      specFilterSiblings [exA, exAen, exAfr] "fr" "en" :=
  (claim_C1_filter_matches_spec [exA, exAen, exAfr] "fr" "en"
    (by decide) (by decide) (by decide) (by decide)).1

/-- C2: the locale fallback filter is idempotent: filtering an
already-filtered tree by the same request and default locales yields the
identical tree, node for node, in the same order, at every depth. -/
theorem claim_C2_filter_idempotent (l : List PageMapNode)
    (L D : Option String) :
    filterRouteLocale (filterRouteLocale l L D) L D =
      filterRouteLocale l L D :=
  filterRouteLocale_idem_aux (sizeOf l) l L D (le_refl _)

/-- C9: `filterRouteLocale` never removes or reorders a `Directory`
node: the directories of the output are exactly the directories of the
input, in order, with name and route unchanged and only the children
sequence replaced by its recursively filtered version (the appended
fallbacks are never directories). -/
theorem claim_C9_directories_preserved (l : List PageMapNode)
    (L D : Option String) :
    (filterRouteLocale l L D).filter (fun p => p.isDir) =
      (l.filter fun p => p.isDir).map fun p =>
        match p with
        | .dir n r cs => .dir n r (filterRouteLocale cs L D)
        | q => q := by
  have hfb : (fbOut l L D).filter (fun p => p.isDir) = [] := by
    rw [List.filter_eq_nil_iff]
    intro q hq
    rcases mem_fbOut l L D q hq with ⟨_, hc, _, _⟩
    simp [(isCandFor_spec L D q.name q hc).1]
  rw [filterRouteLocale_eq, List.filter_append, hfb, List.append_nil,
    mainOut_filter_dirs]

/-- C10: when the request locale is absent or empty, only nodes with a
falsy (absent or empty) locale are exact matches — a node tagged with the
(nonempty) default locale never is; such a node can reach the output only
as the appended fallback of a name that has no falsy-locale sibling; and
filtering with no request locale is a different operation from filtering
for the default locale, as the concrete sibling pair shows. -/
theorem claim_C10_absent_request_locale (l : List PageMapNode)
    (L D : Option String) (p : PageMapNode) (Dv : String)
    (hL : strFalsy L = true) (hD : D = some Dv) (hDv : Dv ≠ "")
    (hp : p ∈ filterRouteLocale l L D) (hpd : p.isDir = false)
    (hpl : p.locale = some Dv) :
    (∀ q : PageMapNode, localeMatches q L D = strFalsy q.locale) ∧
      (∀ q ∈ l, q.isDir = false → q.name = p.name →
        strFalsy q.locale = false) ∧
      filterRouteLocale [exX, exXen] none (some "en") = [exX] ∧
      filterRouteLocale [exX, exXen] (some "en") (some "en") =
        [exX, exXen] := by
  have hmatch : ∀ q : PageMapNode, localeMatches q L D = strFalsy q.locale := by
    intro q
    have hdef : isDefaultLocaleB L D = true := by
      unfold isDefaultLocaleB
      rw [hL]
      rfl
    unfold localeMatches
    rw [hdef]
    cases hql : q.locale with
    | none => simp [strFalsy]
    | some s =>
      by_cases hs : s = ""
      · subst hs
        cases L with
        | none => simp [strFalsy]
        | some Lv =>
          have : Lv = "" := by
            by_contra hx
            simp [strFalsy, hx] at hL
          subst this
          simp [strFalsy]
      · have hne : ¬(some s = L) := by
          cases L with
          | none => simp
          | some Lv =>
            have : Lv = "" := by
              by_contra hx
              simp [strFalsy, hx] at hL
            subst this
            simpa using hs
        simp [strFalsy, hs, hne]
  refine ⟨hmatch, ?_, by rw [filterRouteLocale_eq]; decide,
    by rw [filterRouteLocale_eq]; decide⟩
  have hpm : localeMatches p L D = false := by
    rw [hmatch p, hpl]
    simp [strFalsy, hDv]
  rw [filterRouteLocale_eq] at hp
  rcases List.mem_append.mp hp with hmain | hfb
  · rw [mainOut_nondir_matches l L D p hmain hpd] at hpm
    cases hpm
  · rcases mem_fbOut l L D p hfb with ⟨_, _, hnm, _⟩
    intro q hq hqd hqn
    by_contra hx
    have hqf : strFalsy q.locale = true := by
      cases hqq : strFalsy q.locale with
      | false => exact absurd hqq hx
      | true => rfl
    have : hasMatched l L D p.name = true := by
      unfold hasMatched
      rw [List.any_eq_true]
      refine ⟨q, hq, ?_⟩
      simp [hqd, hmatch q, hqf, hqn]
    rw [this] at hnm
    cases hnm

/-- Witness for C10: the default-locale-tagged node `x.en.md` survives a
no-request-locale filter of the directory containing it alone, and its
own locale tag is indeed not falsy. -/
theorem claim_C10_witness : strFalsy exXen.locale = false :=
  (claim_C10_absent_request_locale [exXen] none (some "en") exXen "en"
    rfl rfl (by decide) (by rw [filterRouteLocale_eq]; decide) rfl
    rfl).2.1 exXen (by decide) rfl rfl

/-! ## Lemmas: the tree builder -/

theorem mapPhase_fst (items : List (Option PageMapNode))
    (dm : List (String × String)) (st : BuildState) :
    (mapPhase items dm st).1 = items.filterMap id := by
  induction items generalizing st with
  | nil => rfl
  | cons o rest ih =>
    cases o with
    | none => simp [mapPhase, List.filterMap_cons, ih]
    | some it => simp [mapPhase, List.filterMap_cons, ih]

theorem getFiles_fst (ctx : BuildCtx) (es : List FSEntry) (dp r : String)
    (st : BuildState) :
    (getFiles ctx es dp r st).1 =
      ((getEntries ctx es dp r [] st).1).filterMap id := by
  rw [getFiles]
  rcases getEntries ctx es dp r [] st with ⟨items, dm, st1⟩
  exact mapPhase_fst items dm st1

theorem getEntries_items_indep :
    ∀ (N : Nat) (ctx : BuildCtx) (es : List FSEntry) (dp r : String)
      (dm dm' : List (String × String)) (st st' : BuildState),
      sizeOf es ≤ N →
      (getEntries ctx es dp r dm st).1 =
        (getEntries ctx es dp r dm' st').1 := by
  intro N
  induction N with
  | zero =>
    intro ctx es dp r dm dm' st st' h
    cases es with
    | nil => simp [getEntries]
    | cons e rest => simp at h
  | succ N ih =>
    intro ctx es dp r dm dm' st st' h
    cases es with
    | nil => simp [getEntries]
    | cons e rest =>
      have hrest : sizeOf rest ≤ N := by simp at h; omega
      cases e with
      | dir name sub =>
        have hsub : sizeOf sub ≤ N := by simp at h; omega
        simp only [getEntries]
        rw [getFiles_fst, getFiles_fst,
          ih ctx sub _ _ [] [] st st' hsub]
        rcases getEntries ctx sub (dp ++ "/" ++ name)
          (joinRoute r (routeSeg name)) [] st' with ⟨subItems, sdm, sst⟩
        simp only []
        rw [ih ctx rest dp r dm dm' _ _ hrest]
      | file name content =>
        simp only [getEntries]
        by_cases hext : extensionTest name = true
        · simp only [hext, if_true]
          rw [ih ctx rest dp r dm dm' _ _ hrest]
        · simp only [hext, Bool.false_eq_true, if_false]
          cases metaFileMatch name with
          | some locale =>
            simp only []
            rw [ih ctx rest dp r _ _ st st' hrest]
          | none =>
            simp only []
            rw [ih ctx rest dp r dm dm' st st' hrest]

theorem noEmptyDirList_nil : noEmptyDirList [] = true := rfl

theorem noEmptyDirList_cons (p : PageMapNode) (l : List PageMapNode) :
    noEmptyDirList (p :: l) = (noEmptyDir p && noEmptyDirList l) := rfl

theorem noEmptyDir_dir (n r : String) (cs : List PageMapNode) :
    noEmptyDir (.dir n r cs) = (!cs.isEmpty && noEmptyDirList cs) := rfl

theorem noEmptyDir_nondir (p : PageMapNode) (hp : p.isDir = false) :
    noEmptyDir p = true := by
  cases p with
  | dir a b c => simp [PageMapNode.isDir] at hp
  | page a b c d => rfl
  | metaFile a b c => rfl

theorem getFiles_fst_indep (ctx : BuildCtx) (es : List FSEntry)
    (dp r : String) (st st' : BuildState) :
    (getFiles ctx es dp r st).1 = (getFiles ctx es dp r st').1 := by
  rw [getFiles_fst, getFiles_fst,
    getEntries_items_indep (sizeOf es) ctx es dp r [] [] st st' (le_refl _)]

theorem entries_aux : ∀ (N : Nat) (ctx : BuildCtx) (es : List FSEntry)
    (dp r : String) (dm : List (String × String)) (st : BuildState),
    sizeOf es ≤ N →
    ((getEntries ctx es dp r dm st).1.filterMap id).length =
      (es.filter (entryKept ctx dp r)).length ∧
    noEmptyDirList ((getEntries ctx es dp r dm st).1.filterMap id) = true := by
  intro N
  induction N with
  | zero =>
    intro ctx es dp r dm st h
    cases es with
    | nil => simp [getEntries, noEmptyDirList]
    | cons e rest => simp at h
  | succ N ih =>
    intro ctx es dp r dm st h
    cases es with
    | nil => simp [getEntries, noEmptyDirList]
    | cons e rest =>
      have hrest : sizeOf rest ≤ N := by simp at h; omega
      cases e with
      | dir name sub =>
        have hsub : sizeOf sub ≤ N := by simp at h; omega
        rcases hgf : getFiles ctx sub (dp ++ "/" ++ name)
          (joinRoute r (routeSeg name)) st with ⟨children, st1⟩
        rcases hge : getEntries ctx rest dp r dm st1 with ⟨items, dm2, st2⟩
        have hkept : entryKept ctx dp r (.dir name sub) =
            !children.isEmpty := by
          show (!(getFiles ctx sub (dp ++ "/" ++ name)
            (joinRoute r (routeSeg name)) ⟨"", ""⟩).1.isEmpty) = _
          rw [getFiles_fst_indep ctx sub _ _ ⟨"", ""⟩ st, hgf]
        have hrest' := ih ctx rest dp r dm st1 hrest
        rw [hge] at hrest'
        have hsub' := ih ctx sub (dp ++ "/" ++ name)
          (joinRoute r (routeSeg name)) [] st hsub
        have hchild : noEmptyDirList children = true := by
          have h2 : children =
              (getEntries ctx sub (dp ++ "/" ++ name)
                (joinRoute r (routeSeg name)) [] st).1.filterMap id := by
            have h3 := getFiles_fst ctx sub (dp ++ "/" ++ name)
              (joinRoute r (routeSeg name)) st
            rw [hgf] at h3
            exact h3
          rw [h2]
          exact hsub'.2
        simp only [getEntries, hgf, hge]
        by_cases hemp : children.isEmpty
        · simp only [hemp, if_true, List.filterMap_cons, id_eq,
            List.filter_cons, hkept, hemp, Bool.not_true,
            Bool.false_eq_true, if_false]
          exact hrest'
        · simp only [hemp, if_false, List.filterMap_cons, id_eq,
            List.filter_cons, hkept, Bool.not_false, if_true]
          refine ⟨by simp [hrest'.1], ?_⟩
          simp only [Bool.false_eq_true, if_false, List.filterMap_cons]
          rw [noEmptyDirList_cons, Bool.and_eq_true]
          refine ⟨?_, hrest'.2⟩
          rw [noEmptyDir_dir, Bool.and_eq_true]
          exact ⟨by simp [hemp], hchild⟩
      | file name content =>
        rcases hge : getEntries ctx rest dp r dm st with ⟨items, dm2, st2⟩
        have hrest1 := ih ctx rest dp r dm st hrest
        rw [hge] at hrest1
        by_cases hext : extensionTest name = true
        · have hst1 : ∀ st0 : BuildState,
              (getEntries ctx rest dp r dm st0).1 = items := by
            intro st0
            rw [getEntries_items_indep N ctx rest dp r dm dm st0 st hrest,
              hge]
          have hitems : ∀ st0 : BuildState,
              ((getEntries ctx rest dp r dm st0).1.filterMap id).length =
                (rest.filter (entryKept ctx dp r)).length ∧
              noEmptyDirList
                ((getEntries ctx rest dp r dm st0).1.filterMap id) = true := by
            intro st0
            rw [hst1 st0]
            exact hrest1
          simp only [getEntries, hext, if_true]
          have hpage : ∀ (it : PageMapNode), it.isDir = false →
              noEmptyDir it = true := by
            intro it hd
            cases it with
            | dir a b c => simp [PageMapNode.isDir] at hd
            | page a b c d => rfl
            | metaFile a b c => rfl
          rcases hge2 : getEntries ctx rest dp r dm
            (if dp ++ "/" ++ name = ctx.currentResourcePath then
              { st with activeRoute :=
                joinRoute r (routeSeg name) } else st) with ⟨items2, dmx, stx⟩
          have hitems2 := hitems
            (if dp ++ "/" ++ name = ctx.currentResourcePath then
              { st with activeRoute := joinRoute r (routeSeg name) } else st)
          rw [hge2] at hitems2
          simp only [List.filterMap_cons, id_eq, List.filter_cons,
            entryKept, hext, Bool.true_or, if_true]
          constructor
          · simp [hitems2.1]
          · rw [noEmptyDirList, Bool.and_eq_true]
            refine ⟨?_, hitems2.2⟩
            by_cases hmdx : mdxTest name = true
            · by_cases hdata : (ctx.fm content).isEmpty = true <;>
                simp [hmdx, hdata, noEmptyDir_nondir, isDir_page]
            · simp [hmdx, noEmptyDir_nondir, isDir_page]
        · have hextf : extensionTest name = false := by
            cases hx : extensionTest name with
            | true => exact absurd hx hext
            | false => rfl
          cases hmm : metaFileMatch name with
          | some locale =>
            rcases hge3 : getEntries ctx rest dp r
              (if strFalsy ctx.activeRouteLocale ∨
                locale = ctx.activeRouteLocale then
                parseJsonFile ctx.jp content else dm) st with ⟨items3, dmy, sty⟩
            have hitems3 : ((getEntries ctx rest dp r
                (if strFalsy ctx.activeRouteLocale ∨
                  locale = ctx.activeRouteLocale then
                  parseJsonFile ctx.jp content else dm) st).1.filterMap
                  id).length =
                (rest.filter (entryKept ctx dp r)).length ∧
                noEmptyDirList ((getEntries ctx rest dp r
                  (if strFalsy ctx.activeRouteLocale ∨
                    locale = ctx.activeRouteLocale then
                    parseJsonFile ctx.jp content else dm)
                    st).1.filterMap id) = true :=
              ih ctx rest dp r _ st hrest
            rw [hge3] at hitems3
            simp only [getEntries, hextf, Bool.false_eq_true, if_false,
              hmm, hge3, List.filterMap_cons, id_eq, List.filter_cons,
              entryKept, hextf, Option.isSome_some, Bool.false_or, if_true]
            constructor
            · simp [hitems3.1]
            · rw [noEmptyDirList_cons, Bool.and_eq_true]
              exact ⟨rfl, hitems3.2⟩
          | none =>
            simp only [getEntries, hextf, Bool.false_eq_true, if_false,
              hmm, hge, List.filterMap_cons, id_eq, List.filter_cons,
              entryKept, hextf, Option.isSome_none, Bool.false_or,
              Bool.or_self, if_false]
            exact hrest1

/-- C7: no `Directory` node of a built tree has an empty children
sequence (empty-after-recursion subdirectories are pruned), and the
children count of every directory equals the number of its entries that
are kept: non-empty-after-recursion subdirectories plus content and meta
files. -/
theorem claim_C7_no_empty_directories (ctx : BuildCtx) (es : List FSEntry)
    (dp r : String) (st : BuildState) :
    noEmptyDirList (getFiles ctx es dp r st).1 = true ∧
    (getFiles ctx es dp r st).1.length =
      (es.filter (entryKept ctx dp r)).length := by
  have h := entries_aux (sizeOf es) ctx es dp r [] st (le_refl _)
  rw [getFiles_fst]
  exact ⟨h.2, h.1⟩

theorem getEntries_append (ctx : BuildCtx) (a b : List FSEntry)
    (dp r : String) (dm : List (String × String)) (st : BuildState) :
    getEntries ctx (a ++ b) dp r dm st =
      ((getEntries ctx a dp r dm st).1 ++
        (getEntries ctx b dp r (getEntries ctx a dp r dm st).2.1
          (getEntries ctx a dp r dm st).2.2).1,
       (getEntries ctx b dp r (getEntries ctx a dp r dm st).2.1
          (getEntries ctx a dp r dm st).2.2).2) := by
  induction a generalizing dm st with
  | nil => simp [getEntries]
  | cons e rest ih =>
    cases e with
    | dir name sub =>
      rcases hgf : getFiles ctx sub (dp ++ "/" ++ name)
        (joinRoute r (routeSeg name)) st with ⟨children, st1⟩
      simp only [List.cons_append, getEntries, hgf, ih]
    | file name content =>
      by_cases hext : extensionTest name = true
      · simp only [List.cons_append, getEntries, hext, if_true, ih]
      · have hextf : extensionTest name = false := by
          cases hx : extensionTest name with
          | true => exact absurd hx hext
          | false => rfl
        cases hmm : metaFileMatch name with
        | some locale =>
          simp only [List.cons_append, getEntries, hextf,
            Bool.false_eq_true, if_false, hmm, ih]
        | none =>
          simp only [List.cons_append, getEntries, hextf,
            Bool.false_eq_true, if_false, hmm, ih]

/-- C8: a meta-config file whose content is not valid JSON does not abort
the build: `parseJsonFile` catches the error and degrades to the empty
mapping, the `MetaFile` node carries that empty mapping, it becomes the
directory's authoritative meta when the file qualifies, and the remaining
entries are processed exactly as usual. -/
theorem claim_C8_malformed_meta_degrades (ctx : BuildCtx)
    (pre post : List FSEntry) (mname mcontent msg : String)
    (loc : Option String) (dp r : String)
    (dm : List (String × String)) (st : BuildState)
    (hnotext : extensionTest mname = false)
    (hmeta : metaFileMatch mname = some loc)
    (hjson : ctx.jp mcontent = .error msg) :
    parseJsonFile ctx.jp mcontent = [] ∧
    getEntries ctx (pre ++ .file mname mcontent :: post) dp r dm st =
      ((getEntries ctx pre dp r dm st).1 ++
        some (.metaFile "meta.json" [] loc) ::
          (getEntries ctx post dp r
            (if strFalsy ctx.activeRouteLocale ∨ loc = ctx.activeRouteLocale
             then [] else (getEntries ctx pre dp r dm st).2.1)
            (getEntries ctx pre dp r dm st).2.2).1,
       (getEntries ctx post dp r
          (if strFalsy ctx.activeRouteLocale ∨ loc = ctx.activeRouteLocale
           then [] else (getEntries ctx pre dp r dm st).2.1)
          (getEntries ctx pre dp r dm st).2.2).2) := by
  have hparse : parseJsonFile ctx.jp mcontent = [] := by
    unfold parseJsonFile
    rw [hjson]
  refine ⟨hparse, ?_⟩
  rw [getEntries_append]
  simp only [getEntries, hnotext, Bool.false_eq_true, if_false, hmeta,
    hparse]

/-- Witness for C8: a directory holding just `meta.en.json` with
unparseable content, under a JSON oracle that rejects it. -/
theorem claim_C8_witness :
    parseJsonFile ctxW.jp "nonsense" = [] ∧
    getEntries ctxW [FSEntry.file "meta.en.json" "nonsense"] "/pages" "/"
        [] ⟨"", ""⟩ =
      ((getEntries ctxW [] "/pages" "/" [] ⟨"", ""⟩).1 ++
        some (.metaFile "meta.json" [] (some "en")) ::
          (getEntries ctxW [] "/pages" "/"
            (if strFalsy ctxW.activeRouteLocale ∨
              (some "en" : Option String) = ctxW.activeRouteLocale
             then [] else (getEntries ctxW [] "/pages" "/" [] ⟨"", ""⟩).2.1)
            (getEntries ctxW [] "/pages" "/" [] ⟨"", ""⟩).2.2).1,
       (getEntries ctxW [] "/pages" "/"
          (if strFalsy ctxW.activeRouteLocale ∨
            (some "en" : Option String) = ctxW.activeRouteLocale
           then [] else (getEntries ctxW [] "/pages" "/" [] ⟨"", ""⟩).2.1)
          (getEntries ctxW [] "/pages" "/" [] ⟨"", ""⟩).2.2).2) :=
  claim_C8_malformed_meta_degrades ctxW [] [] "meta.en.json" "nonsense"
    "unexpected token" (some "en") "/pages" "/" [] ⟨"", ""⟩
    (by decide) (by decide) rfl

theorem getLastD_cons {α : Type} (x : α) (xs : List α) (d : α) :
    ((x :: xs).getLast?).getD d = (xs.getLast?).getD x := by
  induction xs generalizing x d with
  | nil => rfl
  | cons y ys ih =>
    rw [List.getLast?_cons_cons, ih y d, ih y x]

theorem getEntries_dirMeta (ctx : BuildCtx) (es : List FSEntry)
    (dp r : String) :
    ∀ (dm : List (String × String)) (st : BuildState),
    (getEntries ctx es dp r dm st).2.1 =
      ((es.filterMap (metaEntryParsed ctx)).getLast?).getD dm := by
  induction es with
  | nil => intro dm st; simp [getEntries]
  | cons e rest ih =>
    intro dm st
    cases e with
    | dir name sub =>
      rcases hgf : getFiles ctx sub (dp ++ "/" ++ name)
        (joinRoute r (routeSeg name)) st with ⟨children, st1⟩
      simp only [getEntries, hgf, List.filterMap_cons, metaEntryParsed]
      exact ih dm st1
    | file name content =>
      by_cases hext : extensionTest name = true
      · simp only [getEntries, hext, if_true, List.filterMap_cons,
          metaEntryParsed, hext]
        exact ih dm _
      · have hextf : extensionTest name = false := by
          cases hx : extensionTest name with
          | true => exact absurd hx hext
          | false => rfl
        cases hmm : metaFileMatch name with
        | some locale =>
          by_cases hq : strFalsy ctx.activeRouteLocale ∨
              locale = ctx.activeRouteLocale
          · simp only [getEntries, hextf, Bool.false_eq_true, if_false,
              hmm, List.filterMap_cons, metaEntryParsed, hq, if_pos hq]
            simp only [if_true]
            rw [ih _ st, getLastD_cons]
          · simp only [getEntries, hextf, Bool.false_eq_true, if_false,
              hmm, List.filterMap_cons, metaEntryParsed, hq, if_neg hq]
            exact ih dm st
        | none =>
          simp only [getEntries, hextf, Bool.false_eq_true, if_false,
            hmm, List.filterMap_cons, metaEntryParsed]
          exact ih dm st

theorem getFiles_snd (ctx : BuildCtx) (es : List FSEntry) (dp r : String)
    (st : BuildState) :
    (getFiles ctx es dp r st).2 =
      (mapPhase (getEntries ctx es dp r [] st).1
        (getEntries ctx es dp r [] st).2.1
        (getEntries ctx es dp r [] st).2.2).2 := by
  rw [getFiles]

theorem mapPhase_snd (items : List (Option PageMapNode))
    (dm : List (String × String)) :
    ∀ st : BuildState,
    (mapPhase items dm st).2 =
      (((items.filterMap id).filter fun it =>
        it.routeOf = some st.activeRoute).getLast?).elim st
        (fun it => ⟨st.activeRoute, lookupTitle dm it.name⟩) := by
  induction items with
  | nil => intro st; rfl
  | cons o rest ih =>
    intro st
    cases o with
    | none =>
      simp only [mapPhase, List.filterMap_cons]
      exact ih st
    | some it =>
      have hstep : (mapPhase (some it :: rest) dm st).2 =
          (mapPhase rest dm (if it.routeOf = some st.activeRoute then
            ⟨st.activeRoute, lookupTitle dm it.name⟩ else st)).2 := rfl
      by_cases hm : it.routeOf = some st.activeRoute
      · rw [hstep, if_pos hm,
          ih ⟨st.activeRoute, lookupTitle dm it.name⟩]
        dsimp only
        simp only [List.filterMap_cons, id_eq, List.filter_cons,
          decide_eq_true_eq]
        rw [if_pos hm]
        cases hrf : (List.filter
            (fun jt => decide (jt.routeOf = some st.activeRoute))
            (List.filterMap id rest)) with
        | nil => rfl
        | cons y ys =>
          rw [List.getLast?_cons_cons]
          cases hlast : (y :: ys).getLast? with
          | none => simp at hlast
          | some z => rfl
      · rw [hstep, if_neg hm, ih st]
        simp only [List.filterMap_cons, id_eq, List.filter_cons,
          decide_eq_true_eq]
        rw [if_neg hm]

/-- C3: for one directory's processing, the final `activeRouteTitle` is
resolved from the last resolved child whose route equals the discovered
`activeRoute`: its title is the authoritative meta's entry for the
child's name when present and non-empty, else the child's own name; and
the authoritative meta is the parsed mapping of the last meta file in
enumeration order that qualifies (its locale matches the active file's
locale, or no locale constraint is active). When no child's route
matches, the state is left as the entry pass produced it. -/
theorem claim_C3_active_route_title (ctx : BuildCtx) (es : List FSEntry)
    (dp r : String) (st : BuildState) :
    (getEntries ctx es dp r [] st).2.1 =
      ((es.filterMap (metaEntryParsed ctx)).getLast?).getD [] ∧
    (getFiles ctx es dp r st).2 =
      (((getFiles ctx es dp r st).1.filter fun it =>
        it.routeOf = some (getEntries ctx es dp r [] st).2.2.activeRoute
        ).getLast?).elim
        (getEntries ctx es dp r [] st).2.2
        (fun it =>
          ⟨(getEntries ctx es dp r [] st).2.2.activeRoute,
           lookupTitle (((es.filterMap (metaEntryParsed ctx)).getLast?).getD [])
             it.name⟩) := by
  have hdm := getEntries_dirMeta ctx es dp r [] st
  refine ⟨hdm, ?_⟩
  rw [getFiles_snd, getFiles_fst,
    mapPhase_snd (getEntries ctx es dp r [] st).1
      (getEntries ctx es dp r [] st).2.1
      (getEntries ctx es dp r [] st).2.2,
    hdm]

/-! ## C6: locale extraction from filenames -/

theorem takeWhile_all_append {α : Type} (p : α → Bool) (l : List α) (x : α)
    (t : List α) (hl : ∀ c ∈ l, p c = true) (hx : p x = false) :
    (l ++ x :: t).takeWhile p = l := by
  induction l with
  | nil => simp [List.takeWhile_cons, hx]
  | cons a as ih =>
    simp only [List.cons_append, List.takeWhile_cons, hl a (by simp),
      if_true]
    rw [ih (fun c hc => hl c (by simp [hc]))]

theorem stripLocaleExtRev_exact (ext : String) (R : List Char)
    (hext : ext ∈ ["md", "mdx", "js", "jsx", "json"]) :
    stripLocaleExtRev (ext.data.reverse ++ '.' :: R) = some R := by
  simp only [List.mem_cons, List.not_mem_nil, or_false] at hext
  rcases hext with h | h | h | h | h
  all_goals subst h
  all_goals simp [stripLocaleExtRev, localeExtsRev, List.isPrefixOf,
    List.find?]

theorem getLocale_pos (base loc ext : String)
    (hext : ext ∈ ["md", "mdx", "js", "jsx", "json"])
    (hl : loc ≠ "") (hlc : ∀ c ∈ loc.data, locCharB c = true) :
    getLocaleFromFilename (base ++ "." ++ loc ++ "." ++ ext) = some loc := by
  have hdata : (base ++ "." ++ loc ++ "." ++ ext).data.reverse
      = ext.data.reverse ++ '.' ::
        (loc.data.reverse ++ '.' :: base.data.reverse) := by
    simp [String.data_append]
  have hld : loc.data ≠ [] := fun h => hl (String.ext h)
  have hrun : (loc.data.reverse ++ '.' :: base.data.reverse).takeWhile
      locCharB = loc.data.reverse := by
    apply takeWhile_all_append
    · intro c hc
      exact hlc c (List.mem_reverse.mp hc)
    · rfl
  have hne : (loc.data.reverse).isEmpty = false := by
    cases hd : loc.data.reverse with
    | nil => exact absurd (by simpa using congrArg List.reverse hd) hld
    | cons a as => rfl
  rw [getLocaleFromFilename, hdata, stripLocaleExtRev_exact _ _ hext]
  simp only [hrun, List.drop_left, if_pos rfl, hne, Bool.false_eq_true,
    if_false, List.reverse_reverse]
  cases loc with
  | mk d => rfl

theorem getLocale_neg (base ext : String)
    (hext : ext ∈ ["md", "mdx", "js", "jsx", "json"])
    (hnd : ∀ c ∈ base.data, c ≠ '.') :
    getLocaleFromFilename (base ++ "." ++ ext) = none := by
  have hdata : (base ++ "." ++ ext).data.reverse
      = ext.data.reverse ++ '.' :: base.data.reverse := by
    simp [String.data_append]
  rw [getLocaleFromFilename, hdata, stripLocaleExtRev_exact _ _ hext]
  cases hdrop : (base.data.reverse).drop
      ((base.data.reverse.takeWhile locCharB).length) with
  | nil => simp [hdrop]
  | cons c cs =>
    have hc : c ∈ base.data := by
      have : c ∈ base.data.reverse :=
        List.mem_of_mem_drop (by rw [hdrop]; exact List.mem_cons_self c cs)
      exact List.mem_reverse.mp this
    simp only [hdrop]
    rw [if_neg (hnd c hc)]

/-- C6, counterexample: `ts` and `tsx` are not in the extension
alternatives `(mdx?|jsx?|json)` of the locale regex, so a filename
`<base>.<locale>.tsx` or `<base>.<locale>.ts` yields no locale, contrary
to the claimed extension set `{md, mdx, js, jsx, ts, tsx}`. -/
theorem claim_C6_counterexample :
    getLocaleFromFilename "index.en.tsx" = none ∧
    getLocaleFromFilename "index.en.ts" = none ∧
    ¬ getLocaleFromFilename "index.en.tsx" = some "en" := by decide

/-- C6 (amended): for every filename `<base>.<locale>.<ext>` where `ext`
is one of the extensions `{md, mdx, js, jsx, json}` recognized by the
locale regex and the locale segment is a nonempty run of letters and
hyphens, `getLocaleFromFilename` returns the locale tag; for a plain
`<base>.<ext>` filename whose base has no dot it returns `undefined`; in
particular `"index.en.mdx" ↦ "en"` and `"index.mdx" ↦ undefined`. -/
theorem claim_C6_locale_extraction :
    (∀ base loc ext : String, ext ∈ ["md", "mdx", "js", "jsx", "json"] →
      loc ≠ "" → (∀ c ∈ loc.data, locCharB c = true) →
      getLocaleFromFilename (base ++ "." ++ loc ++ "." ++ ext) = some loc) ∧
    (∀ base ext : String, ext ∈ ["md", "mdx", "js", "jsx", "json"] →
      (∀ c ∈ base.data, c ≠ '.') →
      getLocaleFromFilename (base ++ "." ++ ext) = none) ∧
    getLocaleFromFilename "index.en.mdx" = some "en" ∧
    getLocaleFromFilename "index.mdx" = none :=
  ⟨getLocale_pos, getLocale_neg, by decide, by decide⟩

/-- C6, witness: the amended theorem applied to the concrete filenames
`doc.zh-CN.mdx` and `doc.js`. -/
theorem claim_C6_witness :
    getLocaleFromFilename ("doc" ++ "." ++ "zh-CN" ++ "." ++ "mdx") =
      some "zh-CN" ∧
    getLocaleFromFilename ("doc" ++ "." ++ "js") = none :=
  ⟨claim_C6_locale_extraction.1 "doc" "zh-CN" "mdx" (by decide) (by decide)
    (by decide),
   claim_C6_locale_extraction.2.1 "doc" "js" (by decide) (by decide)⟩

/-! ## C4: the sibling analyzer -/

theorem matchedFiles_cons (f : String) (n c : String)
    (rest : List (String × String)) :
    matchedFiles f ((n, c) :: rest) =
      if filenameReTest f n then
        analyzedOf (n, c) :: matchedFiles f rest
      else matchedFiles f rest := by
  simp only [matchedFiles, List.filter_cons]
  split <;> simp

theorem lastMatchIdx_no_match (dl : Option String) :
    ∀ (fs : List AnalyzedFile) (base cur : Nat),
    (∀ f ∈ fs, ¬ f.locale = dl) → lastMatchIdx dl fs base cur = cur := by
  intro fs
  induction fs with
  | nil => intro base cur h; rfl
  | cons f rest ih =>
    intro base cur h
    rw [lastMatchIdx, if_neg (h f (by simp))]
    exact ih (base + 1) cur (fun g hg => h g (by simp [hg]))

theorem lastMatchIdx_last (dl : Option String) (f : AnalyzedFile)
    (post : List AnalyzedFile) (hf : f.locale = dl)
    (hpost : ∀ g ∈ post, ¬ g.locale = dl) :
    ∀ (pre : List AnalyzedFile) (base cur : Nat),
    lastMatchIdx dl (pre ++ f :: post) base cur = base + pre.length := by
  intro pre
  induction pre with
  | nil =>
    intro base cur
    rw [List.nil_append, lastMatchIdx, if_pos hf,
      lastMatchIdx_no_match dl post (base + 1) base hpost]
    simp
  | cons p ps ih =>
    intro base cur
    rw [List.cons_append, lastMatchIdx, ih (base + 1)]
    simp [Nat.add_assoc, Nat.add_comm 1 ps.length]

theorem analyzeLoop_spec (filename : String) (dl : Option String) :
    ∀ (entries : List (String × String)) (hs hg : Bool) (di : Nat)
      (acc : List AnalyzedFile),
    analyzeLoop filename dl entries hs hg di acc =
      ⟨hs || (matchedFiles filename entries).any fun f => f.ssr,
       hg || (matchedFiles filename entries).any fun f => f.ssg,
       acc ++ matchedFiles filename entries,
       lastMatchIdx dl (matchedFiles filename entries) acc.length di⟩ := by
  intro entries
  induction entries with
  | nil =>
    intro hs hg di acc
    simp [analyzeLoop, matchedFiles, lastMatchIdx]
  | cons e rest ih =>
    intro hs hg di acc
    rcases e with ⟨n, c⟩
    by_cases hm : filenameReTest filename n = true
    · rw [show analyzeLoop filename dl ((n, c) :: rest) hs hg di acc =
          analyzeLoop filename dl rest (hs || exportSSRTest c)
            (hg || exportSSGTest c)
            (if getLocaleFromFilename n = dl then acc.length else di)
            (acc ++ [analyzedOf (n, c)]) from by
        simp only [analyzeLoop, if_pos hm]; rfl]
      rw [ih, matchedFiles_cons, if_pos hm]
      simp [analyzedOf, lastMatchIdx, Bool.or_assoc, List.length_append]
    · rw [show analyzeLoop filename dl ((n, c) :: rest) hs hg di acc =
          analyzeLoop filename dl rest hs hg di acc from by
        simp only [analyzeLoop, if_neg hm]]
      rw [ih, matchedFiles_cons, if_neg hm]

/-- C4: the analyzer's `files` are exactly the analyzed records of the
entries matching the sibling pattern, in enumeration order; `ssr` and
`ssg` are the logical ORs of the per-variant detections; `defaultIndex`
is 0 when no variant's locale equals the default locale, and is the
position of the (last) variant whose locale equals it otherwise. -/
theorem claim_C4_analyzer (filename : String) (dl : Option String)
    (entries : List (String × String)) :
    (analyzeLocalizedEntries filename dl entries).files =
        matchedFiles filename entries ∧
    (analyzeLocalizedEntries filename dl entries).ssr =
        (matchedFiles filename entries).any (fun f => f.ssr) ∧
    (analyzeLocalizedEntries filename dl entries).ssg =
        (matchedFiles filename entries).any (fun f => f.ssg) ∧
    ((∀ f ∈ matchedFiles filename entries, ¬ f.locale = dl) →
      (analyzeLocalizedEntries filename dl entries).defaultIndex = 0) ∧
    (∀ (pre : List AnalyzedFile) (f : AnalyzedFile)
        (post : List AnalyzedFile),
      matchedFiles filename entries = pre ++ f :: post →
      f.locale = dl → (∀ g ∈ post, ¬ g.locale = dl) →
      (analyzeLocalizedEntries filename dl entries).defaultIndex =
        pre.length) := by
  rw [analyzeLocalizedEntries, analyzeLoop_spec]
  refine ⟨by simp, by simp, by simp, ?_, ?_⟩
  · intro h
    exact lastMatchIdx_no_match dl _ _ _ h
  · intro pre f post hsplit hf hpost
    simp only [hsplit, List.length_nil]
    rw [lastMatchIdx_last dl f post hf hpost pre 0 0]
    simp

/-- C4, witness: on the spec's dispatch example (two variants `en` and
`fr`, default locale `de` absent from the set), `defaultIndex` is 0, and
the static-fetch flag is the OR over the variants. -/
theorem claim_C4_witness :
    (analyzeLocalizedEntries "doc" (some "de")
      [("doc.en.mdx", "export const getStaticProps = 1"),
       ("doc.fr.mdx", "text")]).defaultIndex = 0 ∧
    (analyzeLocalizedEntries "doc" (some "de")
      [("doc.en.mdx", "export const getStaticProps = 1"),
       ("doc.fr.mdx", "text")]).ssg = true :=
  ⟨(claim_C4_analyzer "doc" (some "de")
      [("doc.en.mdx", "export const getStaticProps = 1"),
       ("doc.fr.mdx", "text")]).2.2.2.1 (by decide),
   ((claim_C4_analyzer "doc" (some "de")
      [("doc.en.mdx", "export const getStaticProps = 1"),
       ("doc.fr.mdx", "text")]).2.2.1).trans (by decide)⟩

/-! ## C5: the generated fetch dispatcher -/

theorem runFetchClauses_empty :
    ∀ (clauses : List (String × Bool)) (i : Nat) (l : String),
    (∀ p ∈ clauses, p.1 = l → p.2 = false) →
    runFetchClauses clauses i l = FetchResult.emptyProps := by
  intro clauses
  induction clauses with
  | nil => intro i l h; rfl
  | cons p rest ih =>
    intro i l h
    rcases p with ⟨loc, flag⟩
    rw [runFetchClauses]
    rw [if_neg]
    · exact ih (i + 1) l (fun q hq hql => h q (by simp [hq]) hql)
    · rintro ⟨hl, hf⟩
      have hx : flag = false := h (loc, flag) (by simp) hl.symm
      rw [hf] at hx
      exact Bool.noConfusion hx

/-- C5: when the analyzer's flags are the ORs of the per-variant flags
(as they are, by C4), the generated module emits a `getStaticProps`
dispatcher whenever some variant has a static fetch, even when server
fetches also exist; a fetch dispatcher returns `{ props: {} }` for every
locale all of whose matching clauses carry a false flag (in particular
for a locale whose variant lacks the chosen fetch kind); no variant with
either fetch kind means no fetch export at all; and on the spec's
example clauses, locale `fr` gets empty properties. -/
theorem claim_C5_fetch_dispatcher (a : AnalyzeResult)
    (hssg : a.ssg = (a.files.any fun f => f.ssg))
    (hssr : a.ssr = (a.files.any fun f => f.ssr)) :
    ((a.files.any fun f => f.ssg) = true →
      (generateI18nEntry a).fetchExport =
        some (FetchKind.ssgKind,
          a.files.map fun f => (localeLiteral f.locale, f.ssg))) ∧
    (∀ (k : FetchKind) (clauses : List (String × Bool)) (l : String),
      (generateI18nEntry a).fetchExport = some (k, clauses) →
      (∀ p ∈ clauses, p.1 = l → p.2 = false) →
      runFetchClauses clauses 0 l = FetchResult.emptyProps) ∧
    ((a.files.any fun f => f.ssg) = false →
      (a.files.any fun f => f.ssr) = false →
      (generateI18nEntry a).fetchExport = none) ∧
    runFetchClauses [("en", true), ("fr", false)] 0 "fr" =
      FetchResult.emptyProps := by
  refine ⟨?_, ?_, ?_, by decide⟩
  · intro h
    simp [generateI18nEntry, hssg, h]
  · intro k clauses l hfe hnone
    exact runFetchClauses_empty clauses 0 l hnone
  · intro hg hr
    simp [generateI18nEntry, hssg, hssr, hg, hr]

/-- C5, witness: the spec's dispatch example, variants `en` (static
fetch) and `fr` (no fetch): the module exports a static dispatcher whose
clauses give `en` a true guard and `fr` a false one, and running the
dispatcher at locale `fr` yields empty properties. -/
theorem claim_C5_witness :
    (generateI18nEntry ⟨false, true,
      [⟨"doc.en.mdx", some "en", false, true⟩,
       ⟨"doc.fr.mdx", some "fr", false, false⟩], 0⟩).fetchExport =
      some (FetchKind.ssgKind, [("en", true), ("fr", false)]) ∧
    runFetchClauses [("en", true), ("fr", false)] 0 "fr" =
      FetchResult.emptyProps :=
  ⟨(claim_C5_fetch_dispatcher ⟨false, true,
      [⟨"doc.en.mdx", some "en", false, true⟩,
       ⟨"doc.fr.mdx", some "fr", false, false⟩], 0⟩
      (by decide) (by decide)).1 (by decide),
   (claim_C5_fetch_dispatcher ⟨false, true,
      [⟨"doc.en.mdx", some "en", false, true⟩,
       ⟨"doc.fr.mdx", some "fr", false, false⟩], 0⟩
      (by decide) (by decide)).2.2.2⟩
